import Mathlib

/-!
Verification of the coverage range reducer and the JS/CSS coverage collector
state machines of `src/vendor/puppeteer-core/puppeteer/common/Coverage.js`.

Offsets and hit counts are modelled as `Int` (JS numbers used at integral
values).  JS `Array.prototype.sort` is a stable sort; it is modelled by a
stable insertion sort over the translated comparator.  `undefined` values are
modelled with `Option`, JS `Map` with an insertion-ordered association list.
-/

namespace Coverage

/-- A protocol coverage range: `{startOffset, endOffset, count}`. -/
structure CoverageRange where
  startOffset : Int
  endOffset : Int
  count : Int
  deriving Repr, DecidableEq

/-- A sweep-line endpoint event: `{offset, type, range}`; `type` is `0` for a
start point and `1` for an end point, as in the source. -/
structure Point where
  offset : Int
  type : Nat
  range : CoverageRange
  deriving Repr, DecidableEq

/-- An output range `{start, end}` of the reducer (`end` is a Lean keyword, so
the field is named `endPos`). -/
structure Segment where
  start : Int
  endPos : Int
  deriving Repr, DecidableEq

/-- The comparator of `convertToDisjointRanges` translated to a `≤` test:
`pointLe a b` is true exactly when the JS comparator returns a value `≤ 0` on
`(a, b)`. -/
def pointLe (a b : Point) : Bool :=
  if a.offset = b.offset then
    if a.type = b.type then
      let aLength := a.range.endOffset - a.range.startOffset
      let bLength := b.range.endOffset - b.range.startOffset
      if a.type = 0 then decide (bLength ≤ aLength) else decide (aLength ≤ bLength)
    else decide (b.type < a.type)
  else decide (a.offset < b.offset)

/-- Stable insertion of a point into a sorted list (kept before later equal
elements, matching the stability of JS `Array.prototype.sort`). -/
def orderedInsertP (a : Point) : List Point → List Point
  | [] => [a]
  | b :: l => if pointLe a b then a :: b :: l else b :: orderedInsertP a l

/-- Stable sort of the point list by the JS comparator. -/
def insertionSortP : List Point → List Point
  | [] => []
  | a :: l => orderedInsertP a (insertionSortP l)

/-- State of the scanning loop: the hit-count stack, the results accumulated so
far (most recent first), and `lastOffset`. -/
structure SweepState where
  stack : List Int
  resultsRev : List Segment
  lastOffset : Int
  deriving Repr, DecidableEq

/-- One iteration of the scanning loop of `convertToDisjointRanges`. -/
def sweepStep (s : SweepState) (p : Point) : SweepState :=
  let s1 :=
    match s.stack with
    | top :: _ =>
      if s.lastOffset < p.offset ∧ 0 < top then
        match s.resultsRev with
        | lastResult :: rest =>
          if lastResult.endPos = s.lastOffset then
            { s with resultsRev := ⟨lastResult.start, p.offset⟩ :: rest }
          else
            { s with resultsRev := ⟨s.lastOffset, p.offset⟩ :: lastResult :: rest }
        | [] => { s with resultsRev := [⟨s.lastOffset, p.offset⟩] }
      else s
    | [] => s
  let s2 := { s1 with lastOffset := p.offset }
  if p.type = 0 then { s2 with stack := p.range.count :: s2.stack }
  else { s2 with stack := s2.stack.tail }

/-- The two endpoint events of one input range, in emission order. -/
def pointsOf (r : CoverageRange) : List Point :=
  [⟨r.startOffset, 0, r⟩, ⟨r.endOffset, 1, r⟩]

/-- `convertToDisjointRanges` from `Coverage.js`: emit endpoint events, sort
them with the comparator, run the scanning loop, and filter out ranges of
width `≤ 1`. -/
def convertToDisjointRanges (nestedRanges : List CoverageRange) : List Segment :=
  let points := nestedRanges.flatMap pointsOf
  let final := (insertionSortP points).foldl sweepStep ⟨[], [], 0⟩
  final.resultsRev.reverse.filter fun range => 1 < range.endPos - range.start

/-- A JS `Map` from string keys to `α`, modelled as an insertion-ordered
association list: `set` overwrites in place, a new key is appended at the end,
exactly like `Map.prototype.set`. -/
abbrev SMap (α : Type) : Type := List (String × α)

namespace SMap

/-- `Map.prototype.set`. -/
def set {α : Type} (m : SMap α) (k : String) (v : α) : SMap α :=
  match m with
  | [] => [(k, v)]
  | (k', v') :: rest => if k' = k then (k, v) :: rest else (k', v') :: set rest k v

/-- `Map.prototype.get` (`none` models `undefined`). -/
def get {α : Type} (m : SMap α) (k : String) : Option α :=
  match m with
  | [] => none
  | (k', v) :: rest => if k' = k then some v else get rest k

/-- `Map.prototype.keys`, in insertion order. -/
def keys {α : Type} (m : SMap α) : List String := m.map Prod.fst

/-- `Map.prototype.clear`. -/
def clear {α : Type} (_ : SMap α) : SMap α := []

end SMap

/-- The reserved URL of puppeteer's own evaluation scripts
(`EVALUATION_SCRIPT_URL` from `ExecutionContext.js`). -/
def EVALUATION_SCRIPT_URL : String := "__puppeteer_evaluation_script__"

/-- One range of a function in a `Profiler.takePreciseCoverage` response. -/
structure FunctionCoverage where
  ranges : List CoverageRange
  deriving Repr, DecidableEq

/-- One per-script entry of a `Profiler.takePreciseCoverage` response. -/
structure ScriptCoverageEntry where
  scriptId : String
  functions : List FunctionCoverage
  deriving Repr, DecidableEq

/-- The mutable state of a `JSCoverage` instance. -/
structure JSState where
  enabled : Bool
  scriptURLs : SMap String
  scriptSources : SMap String
  resetOnNavigation : Bool
  reportAnonymousScripts : Bool
  includeRawScriptCoverage : Bool
  deriving Repr, DecidableEq

/-- One entry of the report returned by `JSCoverage.stop`. -/
structure JSEntry where
  url : String
  ranges : List Segment
  text : String
  rawScriptCoverage : Option ScriptCoverageEntry
  deriving Repr, DecidableEq

/-- `JSCoverage.start`: asserts the collector is idle (an `Except.error`
carries the state as it was when the exception was raised), then installs the
options and clears both registry maps.  The protocol enable commands carry no
state. -/
def JSState.start (s : JSState) (resetOnNavigation : Bool)
    (reportAnonymousScripts : Bool) (includeRawScriptCoverage : Bool) :
    Except (String × JSState) JSState :=
  if s.enabled then .error ("JSCoverage is already enabled", s)
  else .ok
    { enabled := true
      scriptURLs := SMap.clear s.scriptURLs
      scriptSources := SMap.clear s.scriptSources
      resetOnNavigation := resetOnNavigation
      reportAnonymousScripts := reportAnonymousScripts
      includeRawScriptCoverage := includeRawScriptCoverage }

/-- `JSCoverage._onExecutionContextsCleared`. -/
def JSState.onExecutionContextsCleared (s : JSState) : JSState :=
  if !s.resetOnNavigation then s
  else { s with scriptURLs := SMap.clear s.scriptURLs, scriptSources := SMap.clear s.scriptSources }

/-- `JSCoverage._onScriptParsed`.  The asynchronous `Debugger.getScriptSource`
round-trip is modelled by `fetched`: `some src` when the command succeeds with
source `src`, `none` when it fails (failure is caught and logged).  An absent
event URL is the empty string (JS `!event.url`). -/
def JSState.onScriptParsed (s : JSState) (scriptId url : String) (fetched : Option String) :
    JSState :=
  if url = EVALUATION_SCRIPT_URL then s
  else if url = "" ∧ !s.reportAnonymousScripts then s
  else
    match fetched with
    | some scriptSource =>
        { s with scriptURLs := SMap.set s.scriptURLs scriptId url
                 scriptSources := SMap.set s.scriptSources scriptId scriptSource }
    | none => s

/-- URL resolution in the loop of `JSCoverage.stop`: `let url = get(...)`, then
`if (!url && this._reportAnonymousScripts) url = 'debugger://VM' + scriptId`. -/
def JSState.resolveURL (s : JSState) (scriptId : String) : Option String :=
  let url := SMap.get s.scriptURLs scriptId
  if url.getD "" = "" ∧ s.reportAnonymousScripts then some ("debugger://VM" ++ scriptId)
  else url

/-- The body of the per-entry loop of `JSCoverage.stop`: `none` models
`continue` (entry skipped because text or URL is `undefined`). -/
def JSState.entryFor (s : JSState) (entry : ScriptCoverageEntry) : Option JSEntry :=
  let url := s.resolveURL entry.scriptId
  let text := SMap.get s.scriptSources entry.scriptId
  match text, url with
  | some text, some url =>
      let flattenRanges := entry.functions.flatMap FunctionCoverage.ranges
      some { url := url
             ranges := convertToDisjointRanges flattenRanges
             text := text
             rawScriptCoverage := if s.includeRawScriptCoverage then some entry else none }
  | _, _ => none

/-- `JSCoverage.stop`: asserts the collector is collecting, flips `_enabled`,
then (given the `Profiler.takePreciseCoverage` response, `none` modelling a
protocol failure) builds the report by filtering the per-script entries. -/
def JSState.stop (s : JSState) (profileResponse : Option (List ScriptCoverageEntry)) :
    Except (String × JSState) (JSState × List JSEntry) :=
  if !s.enabled then .error ("JSCoverage is not enabled", s)
  else
    let s' := { s with enabled := false }
    match profileResponse with
    | none => .error ("ProtocolError", s')
    | some result => .ok (s', result.filterMap s'.entryFor)

/-- The events a `JSCoverage` session reacts to between `start` and `stop`. -/
inductive JSEvent where
  | scriptParsed (scriptId url : String) (fetched : Option String)
  | executionContextsCleared
  deriving Repr, DecidableEq

/-- Event dispatch of a `JSCoverage` session. -/
def JSState.handle (s : JSState) : JSEvent → JSState
  | .scriptParsed scriptId url fetched => s.onScriptParsed scriptId url fetched
  | .executionContextsCleared => s.onExecutionContextsCleared

/-- One entry of a `CSS.stopRuleUsageTracking` response. -/
structure RuleUsage where
  styleSheetId : String
  startOffset : Int
  endOffset : Int
  used : Bool
  deriving Repr, DecidableEq

/-- The mutable state of a `CSSCoverage` instance. -/
structure CSSState where
  enabled : Bool
  stylesheetURLs : SMap String
  stylesheetSources : SMap String
  resetOnNavigation : Bool
  deriving Repr, DecidableEq

/-- One entry of the report returned by `CSSCoverage.stop`.  `url` and `text`
are read from the registry maps with no `undefined` check, so they are
`Option`-valued exactly as in the source. -/
structure CSSEntry where
  url : Option String
  ranges : List Segment
  text : Option String
  deriving Repr, DecidableEq

/-- `CSSCoverage.start`. -/
def CSSState.start (s : CSSState) (resetOnNavigation : Bool) :
    Except (String × CSSState) CSSState :=
  if s.enabled then .error ("CSSCoverage is already enabled", s)
  else .ok
    { enabled := true
      stylesheetURLs := SMap.clear s.stylesheetURLs
      stylesheetSources := SMap.clear s.stylesheetSources
      resetOnNavigation := resetOnNavigation }

/-- `CSSCoverage._onExecutionContextsCleared`. -/
def CSSState.onExecutionContextsCleared (s : CSSState) : CSSState :=
  if !s.resetOnNavigation then s
  else { s with stylesheetURLs := SMap.clear s.stylesheetURLs
                stylesheetSources := SMap.clear s.stylesheetSources }

/-- `CSSCoverage._onStyleSheet`; `fetched` models the `CSS.getStyleSheetText`
round-trip as in `JSState.onScriptParsed`. -/
def CSSState.onStyleSheet (s : CSSState) (styleSheetId sourceURL : String)
    (fetched : Option String) : CSSState :=
  if sourceURL = "" then s
  else
    match fetched with
    | some text =>
        { s with stylesheetURLs := SMap.set s.stylesheetURLs styleSheetId sourceURL
                 stylesheetSources := SMap.set s.stylesheetSources styleSheetId text }
    | none => s

/-- The `styleSheetIdToCoverage` aggregation step of `CSSCoverage.stop`: append
the converted range to the (possibly new) bucket of its stylesheet id. -/
def addRuleUsage (m : List (String × List CoverageRange)) (entry : RuleUsage) :
    List (String × List CoverageRange) :=
  match m with
  | [] => [(entry.styleSheetId,
      [⟨entry.startOffset, entry.endOffset, if entry.used then 1 else 0⟩])]
  | (k, rs) :: rest =>
      if k = entry.styleSheetId then
        (k, rs ++ [⟨entry.startOffset, entry.endOffset, if entry.used then 1 else 0⟩]) :: rest
      else (k, rs) :: addRuleUsage rest entry

/-- Association-list lookup for the aggregation map. -/
def lookupRanges (m : List (String × List CoverageRange)) (k : String) :
    Option (List CoverageRange) :=
  match m with
  | [] => none
  | (k', v) :: rest => if k' = k then some v else lookupRanges rest k

/-- The report built by `CSSCoverage.stop` from the registry maps and the
`ruleUsage` list of the `CSS.stopRuleUsageTracking` response. -/
def cssEntries (urls sources : SMap String) (ruleUsage : List RuleUsage) : List CSSEntry :=
  let styleSheetIdToCoverage := ruleUsage.foldl addRuleUsage []
  (SMap.keys urls).map fun styleSheetId =>
    { url := SMap.get urls styleSheetId
      ranges := convertToDisjointRanges ((lookupRanges styleSheetIdToCoverage styleSheetId).getD [])
      text := SMap.get sources styleSheetId }

/-- `CSSCoverage.stop` (the `CSS.stopRuleUsageTracking` response is `none` on a
protocol failure). -/
def CSSState.stop (s : CSSState) (ruleTrackingResponse : Option (List RuleUsage)) :
    Except (String × CSSState) (CSSState × List CSSEntry) :=
  if !s.enabled then .error ("CSSCoverage is not enabled", s)
  else
    let s' := { s with enabled := false }
    match ruleTrackingResponse with
    | none => .error ("ProtocolError", s')
    | some ruleUsage => .ok (s', cssEntries s.stylesheetURLs s.stylesheetSources ruleUsage)

/-- The events a `CSSCoverage` session reacts to between `start` and `stop`. -/
inductive CSSEvent where
  | styleSheetAdded (styleSheetId sourceURL : String) (fetched : Option String)
  | executionContextsCleared
  deriving Repr, DecidableEq

/-- Event dispatch of a `CSSCoverage` session. -/
def CSSState.handle (s : CSSState) : CSSEvent → CSSState
  | .styleSheetAdded styleSheetId sourceURL fetched => s.onStyleSheet styleSheetId sourceURL fetched
  | .executionContextsCleared => s.onExecutionContextsCleared

/-- Run a `JSCoverage` session over a sequence of protocol events. -/
def JSState.runEvents (s : JSState) (evs : List JSEvent) : JSState :=
  evs.foldl JSState.handle s

/-- Run a `CSSCoverage` session over a sequence of protocol events. -/
def CSSState.runEvents (s : CSSState) (evs : List CSSEvent) : CSSState :=
  evs.foldl CSSState.handle s

/-- The report entry `CSSCoverage.stop` builds for one registered stylesheet
id (so that `cssEntries urls sources ru = (SMap.keys urls).map (cssEntryOf
urls sources ru)` holds definitionally). -/
def cssEntryOf (urls sources : SMap String) (ruleUsage : List RuleUsage)
    (styleSheetId : String) : CSSEntry :=
  { url := SMap.get urls styleSheetId
    ranges := convertToDisjointRanges
      ((lookupRanges (ruleUsage.foldl addRuleUsage []) styleSheetId).getD [])
    text := SMap.get sources styleSheetId }

/-- True when the event is not a `Debugger.scriptParsed` event for `id` (used
to say a script id is untouched by a span of events). -/
def notParsedFor (id : String) : JSEvent → Bool
  | .scriptParsed i _ _ => i != id
  | .executionContextsCleared => true

/-- True when the event, if it is a `Debugger.scriptParsed` event for `id`,
carries an empty URL. -/
def parsedForHasEmptyURL (id : String) : JSEvent → Bool
  | .scriptParsed i u _ => i != id || u == ""
  | .executionContextsCleared => true

/-- True when the event is neither a `Debugger.scriptParsed` event for `id`
nor a `Runtime.executionContextsCleared` event. -/
def jsLeavesAlone (id : String) : JSEvent → Bool
  | .scriptParsed i _ _ => i != id
  | .executionContextsCleared => false

/-- True when the event cannot register script `id` in the registry maps of a
collector whose `reportAnonymousScripts` flag is `report`: it is either a
parsed event for another script, or one that `_onScriptParsed` skips (the
puppeteer evaluation script, an anonymous script with reporting off, or a
failed source fetch), or a contexts-cleared event. -/
def jsDoesNotRegister (report : Bool) (id : String) : JSEvent → Bool
  | .scriptParsed i u f =>
      i != id || u == EVALUATION_SCRIPT_URL || (u == "" && !report) || f.isNone
  | .executionContextsCleared => true

/-- True when the event cannot register stylesheet `id`: it is an added event
for another sheet, or one `_onStyleSheet` skips (no source URL or failed text
fetch), or a contexts-cleared event. -/
def cssDoesNotRegister (id : String) : CSSEvent → Bool
  | .styleSheetAdded i u f => i != id || u == "" || f.isNone
  | .executionContextsCleared => true

/-- True when the event is not a `CSS.styleSheetAdded` event for `id`. -/
def notAddedFor (id : String) : CSSEvent → Bool
  | .styleSheetAdded i _ _ => i != id
  | .executionContextsCleared => true

/-- True when the event, if it is a `CSS.styleSheetAdded` event for `id`,
carries an empty source URL. -/
def addedForHasEmptyURL (id : String) : CSSEvent → Bool
  | .styleSheetAdded i u _ => i != id || u == ""
  | .executionContextsCleared => true

/-- `containsP r p`: unit position `p` lies in the half-open range `r`. -/
def containsP (r : CoverageRange) (p : Int) : Bool :=
  decide (r.startOffset ≤ p) && decide (p < r.endOffset)

/-- The width of an input range. -/
def rangeWidth (r : CoverageRange) : Int := r.endOffset - r.startOffset

/-- Spec-side (claim C1's words): `p` has cumulative truthy coverage, i.e. it
is covered by at least one input range whose count is truthy. -/
def coveredByAnyTruthy (rs : List CoverageRange) (p : Int) : Bool :=
  rs.any fun r => decide (0 < r.count) && containsP r p

/-- Spec-side (amended C1): the innermost — narrowest — input range containing
`p` exists and has truthy count. -/
def innerCovered (rs : List CoverageRange) (p : Int) : Bool :=
  rs.any fun r => containsP r p && decide (0 < r.count) &&
    (rs.all fun s => !containsP s p || decide (rangeWidth r ≤ rangeWidth s))

/-- The start point a range contributes to the sweep. -/
def startPointOf (r : CoverageRange) : Point := ⟨r.startOffset, 0, r⟩

/-- The end point a range contributes to the sweep. -/
def endPointOf (r : CoverageRange) : Point := ⟨r.endOffset, 1, r⟩

/-- Analysis helper: `x` lies strictly after an optional already-swept offset
(`none` = nothing swept yet). -/
def afterOpt (lo : Option Int) (x : Int) : Bool :=
  match lo with
  | none => true
  | some v => decide (v < x)

/-- Analysis helper: `p` lies strictly below the swept offset. -/
def belowOpt (lo : Option Int) (p : Int) : Prop :=
  match lo with
  | none => False
  | some v => p < v

/-- Analysis helper: range `r` is active at the swept offset `lo` (its start
has been swept, its end has not). -/
def activeAt (lo : Option Int) (r : CoverageRange) : Prop :=
  match lo with
  | none => False
  | some v => r.startOffset ≤ v ∧ v < r.endOffset

/-- `a` lies strictly inside `b`. -/
def strictSub (a b : CoverageRange) : Prop :=
  b.startOffset ≤ a.startOffset ∧ a.endOffset ≤ b.endOffset ∧ rangeWidth a < rangeWidth b

/-- Well-nested input: every range is nonempty, and any two ranges are either
disjoint or strictly nested (one properly inside the other). -/
def ProperNested (rs : List CoverageRange) : Prop :=
  (∀ r ∈ rs, r.startOffset < r.endOffset) ∧
  rs.Pairwise fun a b =>
    a.endOffset ≤ b.startOffset ∨ b.endOffset ≤ a.startOffset ∨
    (a.startOffset ≤ b.startOffset ∧ b.endOffset ≤ a.endOffset ∧ rangeWidth b < rangeWidth a) ∨
    (b.startOffset ≤ a.startOffset ∧ a.endOffset ≤ b.endOffset ∧ rangeWidth a < rangeWidth b)

end Coverage

namespace Coverage

/-! ### Simple state-machine lemmas -/

theorem JSState.handle_enabled (s : JSState) (ev : JSEvent) : (s.handle ev).enabled = s.enabled := by
  cases ev with
  | scriptParsed i u f =>
    simp only [handle, onScriptParsed]
    split
    · rfl
    · split
      · rfl
      · cases f <;> rfl
  | executionContextsCleared =>
    simp only [handle, onExecutionContextsCleared]
    split <;> rfl

theorem JSState.handle_flags (s : JSState) (ev : JSEvent) :
    (s.handle ev).enabled = s.enabled ∧
    (s.handle ev).resetOnNavigation = s.resetOnNavigation ∧
    (s.handle ev).reportAnonymousScripts = s.reportAnonymousScripts ∧
    (s.handle ev).includeRawScriptCoverage = s.includeRawScriptCoverage := by
  cases ev with
  | scriptParsed i u f =>
    simp only [handle, onScriptParsed]
    split
    · exact ⟨rfl, rfl, rfl, rfl⟩
    · split
      · exact ⟨rfl, rfl, rfl, rfl⟩
      · cases f <;> exact ⟨rfl, rfl, rfl, rfl⟩
  | executionContextsCleared =>
    simp only [handle, onExecutionContextsCleared]
    split <;> exact ⟨rfl, rfl, rfl, rfl⟩

theorem JSState.runEvents_flags (s : JSState) (evs : List JSEvent) :
    (s.runEvents evs).enabled = s.enabled ∧
    (s.runEvents evs).resetOnNavigation = s.resetOnNavigation ∧
    (s.runEvents evs).reportAnonymousScripts = s.reportAnonymousScripts ∧
    (s.runEvents evs).includeRawScriptCoverage = s.includeRawScriptCoverage := by
  induction evs generalizing s with
  | nil => exact ⟨rfl, rfl, rfl, rfl⟩
  | cons ev evs ih =>
    have h := JSState.handle_flags s ev
    have h' := ih (s.handle ev)
    simp only [runEvents, List.foldl_cons] at h' ⊢
    exact ⟨h'.1.trans h.1, h'.2.1.trans h.2.1, h'.2.2.1.trans h.2.2.1, h'.2.2.2.trans h.2.2.2⟩

theorem CSSState.handle_flagsCss (s : CSSState) (ev : CSSEvent) :
    (s.handle ev).enabled = s.enabled ∧
    (s.handle ev).resetOnNavigation = s.resetOnNavigation := by
  cases ev with
  | styleSheetAdded i u f =>
    simp only [handle, onStyleSheet]
    split
    · exact ⟨rfl, rfl⟩
    · cases f <;> exact ⟨rfl, rfl⟩
  | executionContextsCleared =>
    simp only [handle, onExecutionContextsCleared]
    split <;> exact ⟨rfl, rfl⟩

theorem CSSState.runEvents_flagsCss (s : CSSState) (evs : List CSSEvent) :
    (s.runEvents evs).enabled = s.enabled ∧
    (s.runEvents evs).resetOnNavigation = s.resetOnNavigation := by
  induction evs generalizing s with
  | nil => exact ⟨rfl, rfl⟩
  | cons ev evs ih =>
    have h := CSSState.handle_flagsCss s ev
    have h' := ih (s.handle ev)
    simp only [runEvents, List.foldl_cons] at h' ⊢
    exact ⟨h'.1.trans h.1, h'.2.trans h.2⟩

/-! ### Claim theorems: examples and the collector state machine -/

/-- C2: the range reducer maps the four example inputs of the spec to exactly
the listed outputs, and the empty input to the empty output. -/
theorem claim_C2_reducer_examples :
    convertToDisjointRanges [⟨0, 10, 1⟩] = [⟨0, 10⟩] ∧
    convertToDisjointRanges [⟨0, 10, 1⟩, ⟨3, 6, 0⟩] = [⟨0, 3⟩, ⟨6, 10⟩] ∧
    convertToDisjointRanges [⟨0, 2, 1⟩, ⟨1, 2, 1⟩] = [⟨0, 2⟩] ∧
    convertToDisjointRanges [⟨5, 6, 1⟩] = [] ∧
    convertToDisjointRanges [] = [] := by
  refine ⟨by decide, by decide, by decide, by decide, by decide⟩

/-- C4: `start` on a collecting collector and `stop` on an idle collector (JS
and CSS alike) raise the usage error, and the error carries the collector
state unchanged — in particular both registry maps and the enabled flag. -/
theorem claim_C4_usage_errors (sJS : JSState) (sCSS : CSSState)
    (rn ras irc rn' : Bool) (sJS' : JSState) (sCSS' : CSSState)
    (profileResponse : Option (List ScriptCoverageEntry))
    (ruleTrackingResponse : Option (List RuleUsage))
    (h1 : sJS.enabled = true) (h2 : sCSS.enabled = true)
    (h3 : sJS'.enabled = false) (h4 : sCSS'.enabled = false) :
    sJS.start rn ras irc = .error ("JSCoverage is already enabled", sJS) ∧
    sCSS.start rn' = .error ("CSSCoverage is already enabled", sCSS) ∧
    sJS'.stop profileResponse = .error ("JSCoverage is not enabled", sJS') ∧
    sCSS'.stop ruleTrackingResponse = .error ("CSSCoverage is not enabled", sCSS') := by
  refine ⟨?_, ?_, ?_, ?_⟩
  · simp [JSState.start, h1]
  · simp [CSSState.start, h2]
  · simp [JSState.stop, h3]
  · simp [CSSState.stop, h4]

/-- Witness for C4 at concrete collector states. -/
theorem claim_C4_usage_errors_witness :
    (JSState.start ⟨true, [], [], true, false, false⟩ true false false =
      .error ("JSCoverage is already enabled", ⟨true, [], [], true, false, false⟩)) ∧
    (CSSState.start ⟨true, [], [], true⟩ true =
      .error ("CSSCoverage is already enabled", ⟨true, [], [], true⟩)) ∧
    (JSState.stop ⟨false, [], [], true, false, false⟩ (some []) =
      .error ("JSCoverage is not enabled", ⟨false, [], [], true, false, false⟩)) ∧
    (CSSState.stop ⟨false, [], [], true⟩ (some []) =
      .error ("CSSCoverage is not enabled", ⟨false, [], [], true⟩)) :=
  claim_C4_usage_errors ⟨true, [], [], true, false, false⟩ ⟨true, [], [], true⟩
    true false false true ⟨false, [], [], true, false, false⟩ ⟨false, [], [], true⟩
    (some []) (some []) rfl rfl rfl rfl


/-! ### Association-list (`JS Map`) lemmas -/

theorem SMap.get_set_self {α : Type} (m : SMap α) (k : String) (v : α) :
    SMap.get (SMap.set m k v) k = some v := by
  induction m with
  | nil => simp [SMap.set, SMap.get]
  | cons kv rest ih =>
    obtain ⟨k', v'⟩ := kv
    by_cases h : k' = k
    · simp [SMap.set, SMap.get, h]
    · simp [SMap.set, SMap.get, h, ih]

theorem SMap.get_set_ne {α : Type} (m : SMap α) (k' k : String) (v : α) (h : k' ≠ k) :
    SMap.get (SMap.set m k' v) k = SMap.get m k := by
  induction m with
  | nil => simp [SMap.set, SMap.get, h]
  | cons kv rest ih =>
    obtain ⟨a, b⟩ := kv
    simp only [SMap.set]
    by_cases h2 : a = k'
    · rw [if_pos h2]
      subst h2
      simp [SMap.get, h]
    · rw [if_neg h2]
      by_cases h3 : a = k
      · simp [SMap.get, h3]
      · simp [SMap.get, h3, ih]

theorem SMap.keys_set {α : Type} (m : SMap α) (k : String) (v : α) :
    SMap.keys (SMap.set m k v) = if k ∈ SMap.keys m then SMap.keys m else SMap.keys m ++ [k] := by
  induction m with
  | nil => simp [SMap.set, SMap.keys]
  | cons kv rest ih =>
    obtain ⟨k', v'⟩ := kv
    by_cases h : k' = k
    · subst h
      simp [SMap.set, SMap.keys]
    · have hne : ¬(k = k') := fun hh => h hh.symm
      simp only [SMap.set, if_neg h, SMap.keys, List.map_cons, List.mem_cons]
      simp only [SMap.keys] at ih
      rw [ih]
      by_cases hk : k ∈ rest.map Prod.fst
      · simp [hk, hne]
      · simp [hk, hne]

theorem SMap.get_isSome_of_mem_keys {α : Type} (m : SMap α) (k : String)
    (h : k ∈ SMap.keys m) : (SMap.get m k).isSome = true := by
  induction m with
  | nil => simp [SMap.keys] at h
  | cons kv rest ih =>
    obtain ⟨k', v'⟩ := kv
    by_cases h2 : k' = k
    · simp [SMap.get, h2]
    · simp only [SMap.keys, List.map_cons, List.mem_cons] at h
      rcases h with h | h
      · exact absurd h.symm h2
      · simp [SMap.get, h2, ih h]

theorem SMap.not_mem_keys_of_get_none {α : Type} (m : SMap α) (k : String)
    (h : SMap.get m k = none) : k ∉ SMap.keys m := by
  intro hmem
  have := SMap.get_isSome_of_mem_keys m k hmem
  rw [h] at this
  simp at this

/-! ### Claims C6, C9, C10 -/

/-- C6: given a successful `Profiler.takePreciseCoverage` response,
`JSCoverage.stop` always returns a report (it never throws); a per-script
result whose text or URL cannot be resolved from the registry is silently
skipped; and the only way `stop` can throw past the state assertion is a
protocol command failure. -/
theorem claim_C6_js_stop_never_partial (s : JSState) (profile : List ScriptCoverageEntry)
    (h : s.enabled = true) :
    (s.stop (some profile) =
      .ok ({ s with enabled := false },
           profile.filterMap ({ s with enabled := false }).entryFor)) ∧
    (∀ e : ScriptCoverageEntry,
      SMap.get s.scriptSources e.scriptId = none ∨ s.resolveURL e.scriptId = none →
      ({ s with enabled := false }).entryFor e = none) ∧
    (∀ resp err, s.stop resp = .error err → resp = none) := by
  refine ⟨by simp [JSState.stop, h], ?_, ?_⟩
  · intro e he
    have hsrc : ({ s with enabled := false } : JSState).scriptSources = s.scriptSources := rfl
    have hurl : ({ s with enabled := false } : JSState).resolveURL = s.resolveURL := rfl
    rcases he with h' | h' <;>
      simp [JSState.entryFor, hsrc, hurl, h']
  · intro resp err herr
    cases resp with
    | none => rfl
    | some profile => simp [JSState.stop, h] at herr

/-- Witness for C6: a script id with no registered source is skipped and
`stop` still succeeds. -/
theorem claim_C6_js_stop_never_partial_witness :
    JSState.stop ⟨true, [], [], true, false, false⟩ (some [⟨"7", []⟩]) =
      .ok (⟨false, [], [], true, false, false⟩, []) ∧
    JSState.entryFor ⟨false, [], [], true, false, false⟩ ⟨"7", []⟩ = none := by
  have h := claim_C6_js_stop_never_partial ⟨true, [], [], true, false, false⟩ [⟨"7", []⟩] rfl
  exact ⟨h.1.trans (by rfl), h.2.1 ⟨"7", []⟩ (Or.inl rfl)⟩

theorem lookupRanges_addRuleUsage_ne (m : List (String × List CoverageRange))
    (e : RuleUsage) (i : String) (hne : e.styleSheetId ≠ i) :
    lookupRanges (addRuleUsage m e) i = lookupRanges m i := by
  induction m with
  | nil => simp [addRuleUsage, lookupRanges, hne]
  | cons kv rest ih =>
    obtain ⟨k, rs⟩ := kv
    simp only [addRuleUsage]
    by_cases hk : k = e.styleSheetId
    · rw [if_pos hk]
      subst hk
      simp [lookupRanges, hne]
    · rw [if_neg hk]
      simp only [lookupRanges]
      rw [ih]

theorem lookupRanges_foldl_none (ruleUsage : List RuleUsage) (i : String)
    (h : ∀ e ∈ ruleUsage, e.styleSheetId ≠ i) :
    ∀ m, lookupRanges m i = none → lookupRanges (ruleUsage.foldl addRuleUsage m) i = none := by
  induction ruleUsage with
  | nil => intro m hm; simpa using hm
  | cons e ru ih =>
    intro m hm
    simp only [List.foldl_cons]
    exact ih (fun e' he' => h e' (List.mem_cons_of_mem e he')) _
      ((lookupRanges_addRuleUsage_ne m e i (h e (List.mem_cons_self e ru))).trans hm)

theorem css_get_none_preserved (evs : List CSSEvent) (id : String) :
    ∀ s : CSSState, SMap.get s.stylesheetURLs id = none →
      (∀ ev ∈ evs, addedForHasEmptyURL id ev = true) →
      SMap.get (s.runEvents evs).stylesheetURLs id = none := by
  induction evs with
  | nil => intro s hs _; exact hs
  | cons ev evs ih =>
    intro s hs hall
    have hev := hall ev (List.mem_cons_self ev evs)
    have hrest : ∀ ev' ∈ evs, addedForHasEmptyURL id ev' = true :=
      fun ev' h' => hall ev' (List.mem_cons_of_mem ev h')
    have hstep : SMap.get (s.handle ev).stylesheetURLs id = none := by
      cases ev with
      | styleSheetAdded i u f =>
        simp only [addedForHasEmptyURL] at hev
        by_cases hu : u = ""
        · simp [CSSState.handle, CSSState.onStyleSheet, hu, hs]
        · have hi : i ≠ id := by
            rcases Bool.or_eq_true_iff.mp hev with h | h
            · exact fun he => by simp [he] at h
            · exact absurd (by simpa using h) hu
          cases f with
          | some t =>
            simp only [CSSState.handle, CSSState.onStyleSheet, if_neg hu]
            exact (SMap.get_set_ne _ i id _ hi).trans hs
          | none => simp [CSSState.handle, CSSState.onStyleSheet, hu, hs]
      | executionContextsCleared =>
        simp only [CSSState.handle, CSSState.onExecutionContextsCleared]
        split
        · exact hs
        · simp [SMap.clear, SMap.get]
    simpa [CSSState.runEvents, List.foldl_cons] using ih (s.handle ev) hstep hrest

/-- C9: (a) a stylesheet all of whose `styleSheetAdded` events lack a source
URL is never registered, and every report entry of `CSSCoverage.stop` arises
from a registered id, so such a sheet never appears in the output however much
rule-usage data mentions it; (b) every registered sheet is emitted; (c) a
registered sheet with zero usage entries is emitted with an empty range list
and its registered text. -/
theorem claim_C9_css_no_url_never_reported (s0 : CSSState) (evs : List CSSEvent)
    (id : String) (ruleUsage : List RuleUsage) :
    (SMap.get s0.stylesheetURLs id = none →
      (∀ ev ∈ evs, addedForHasEmptyURL id ev = true) →
      id ∉ SMap.keys (s0.runEvents evs).stylesheetURLs) ∧
    (∀ urls sources : SMap String,
      cssEntries urls sources ruleUsage = (SMap.keys urls).map (cssEntryOf urls sources ruleUsage)) ∧
    (∀ urls sources : SMap String, ∀ i ∈ SMap.keys urls,
      cssEntryOf urls sources ruleUsage i ∈ cssEntries urls sources ruleUsage) ∧
    (∀ urls sources : SMap String, ∀ i, (∀ e ∈ ruleUsage, e.styleSheetId ≠ i) →
      cssEntryOf urls sources ruleUsage i =
        ⟨SMap.get urls i, [], SMap.get sources i⟩) := by
  refine ⟨?_, fun urls sources => rfl, ?_, ?_⟩
  · intro hs hall
    exact SMap.not_mem_keys_of_get_none _ id (css_get_none_preserved evs id s0 hs hall)
  · intro urls sources i hi
    exact List.mem_map_of_mem (cssEntryOf urls sources ruleUsage) hi
  · intro urls sources i hno
    have hlook : lookupRanges (ruleUsage.foldl addRuleUsage []) i = none :=
      lookupRanges_foldl_none ruleUsage i hno [] rfl
    simp [cssEntryOf, hlook, convertToDisjointRanges, insertionSortP]

/-- Witness for C9 on a concrete session: the url-less sheet "2" is absent,
the registered sheet "1" is emitted with empty ranges and its text. -/
theorem claim_C9_css_no_url_never_reported_witness :
    "2" ∉ SMap.keys ((CSSState.runEvents ⟨true, [], [], true⟩
        [.styleSheetAdded "2" "" (some "x"), .styleSheetAdded "1" "u" (some "t")]).stylesheetURLs) ∧
    cssEntryOf [("1", "u")] [("1", "t")] [⟨"9", 0, 5, true⟩] "1" ∈
      cssEntries [("1", "u")] [("1", "t")] [⟨"9", 0, 5, true⟩] ∧
    cssEntryOf [("1", "u")] [("1", "t")] [⟨"9", 0, 5, true⟩] "1" =
      ⟨some "u", [], some "t"⟩ := by
  have h := claim_C9_css_no_url_never_reported ⟨true, [], [], true⟩
    [.styleSheetAdded "2" "" (some "x"), .styleSheetAdded "1" "u" (some "t")] "2"
    [⟨"9", 0, 5, true⟩]
  refine ⟨h.1 rfl (by decide), h.2.2.1 [("1", "u")] [("1", "t")] "1" (by decide), ?_⟩
  have h2 := claim_C9_css_no_url_never_reported ⟨true, [], [], true⟩ [] "1" [⟨"9", 0, 5, true⟩]
  exact (h2.2.2.2 [("1", "u")] [("1", "t")] "1" (by decide)).trans (by rfl)


theorem css_keys_eq_preserved (evs : List CSSEvent) :
    ∀ s : CSSState, SMap.keys s.stylesheetURLs = SMap.keys s.stylesheetSources →
      SMap.keys (s.runEvents evs).stylesheetURLs = SMap.keys (s.runEvents evs).stylesheetSources := by
  induction evs with
  | nil => intro s hs; exact hs
  | cons ev evs ih =>
    intro s hs
    have hstep : SMap.keys (s.handle ev).stylesheetURLs = SMap.keys (s.handle ev).stylesheetSources := by
      cases ev with
      | styleSheetAdded i u f =>
        by_cases hu : u = ""
        · simpa [CSSState.handle, CSSState.onStyleSheet, hu] using hs
        · cases f with
          | some t =>
            simp only [CSSState.handle, CSSState.onStyleSheet, if_neg hu]
            rw [SMap.keys_set, SMap.keys_set, hs]
          | none => simpa [CSSState.handle, CSSState.onStyleSheet, hu] using hs
      | executionContextsCleared =>
        simp only [CSSState.handle, CSSState.onExecutionContextsCleared]
        split
        · exact hs
        · rfl
    simpa [CSSState.runEvents, List.foldl_cons] using ih (s.handle ev) hstep

/-- C10: in every state reachable by a `CSSCoverage` session (a successful
`start` followed by any sequence of events) the two registry maps hold exactly
the same keys, and consequently every entry emitted by `stop` has a defined
text even though `stop` reads the text without checking it. -/
theorem claim_C10_css_registry_key_invariant (s0 : CSSState) (rn : Bool) (s1 : CSSState)
    (hstart : s0.start rn = .ok s1) (evs : List CSSEvent) :
    SMap.keys (s1.runEvents evs).stylesheetURLs =
      SMap.keys (s1.runEvents evs).stylesheetSources ∧
    (∀ ruleUsage s' out, (s1.runEvents evs).stop (some ruleUsage) = .ok (s', out) →
      ∀ ent ∈ out, ent.text.isSome = true) := by
  have hs1 : s1 = ⟨true, [], [], rn⟩ ∧ s0.enabled = false := by
    by_cases he : s0.enabled = true
    · simp [CSSState.start, he] at hstart
    · simp only [CSSState.start, Bool.not_eq_true] at he
      simp [CSSState.start, he] at hstart
      exact ⟨hstart.symm, he⟩
  have hkeys := css_keys_eq_preserved evs s1 (by rw [hs1.1])
  refine ⟨hkeys, ?_⟩
  intro ruleUsage s' out hstop ent hent
  have hen : (s1.runEvents evs).enabled = true := by
    rw [(CSSState.runEvents_flagsCss s1 evs).1, hs1.1]
  simp only [CSSState.stop, hen, Bool.not_true, Bool.false_eq_true, if_false] at hstop
  have hout : out = cssEntries (s1.runEvents evs).stylesheetURLs
      (s1.runEvents evs).stylesheetSources ruleUsage := by
    cases hstop
    rfl
  rw [hout] at hent
  have : ∃ i ∈ SMap.keys (s1.runEvents evs).stylesheetURLs,
      cssEntryOf (s1.runEvents evs).stylesheetURLs (s1.runEvents evs).stylesheetSources
        ruleUsage i = ent := List.mem_map.mp hent
  obtain ⟨i, hi, hie⟩ := this
  have : ent.text = SMap.get (s1.runEvents evs).stylesheetSources i := by
    rw [← hie]; rfl
  rw [this]
  exact SMap.get_isSome_of_mem_keys _ i (hkeys ▸ hi)

/-- Witness for C10 on a concrete session. -/
theorem claim_C10_css_registry_key_invariant_witness :
    SMap.keys ((CSSState.runEvents ⟨true, [], [], true⟩
        [.styleSheetAdded "1" "u" (some "t")]).stylesheetURLs) =
      SMap.keys ((CSSState.runEvents ⟨true, [], [], true⟩
        [.styleSheetAdded "1" "u" (some "t")]).stylesheetSources) ∧
    (∀ ent ∈ [CSSEntry.mk (some "u") [] (some "t")], ent.text.isSome = true) := by
  have h := claim_C10_css_registry_key_invariant ⟨false, [], [], true⟩ true ⟨true, [], [], true⟩
    rfl [.styleSheetAdded "1" "u" (some "t")]
  exact ⟨h.1, h.2 [] ⟨false, [("1", "u")], [("1", "t")], true⟩
    [CSSEntry.mk (some "u") [] (some "t")] (by rfl)⟩


theorem JSState.runEvents_append (s : JSState) (l1 l2 : List JSEvent) :
    s.runEvents (l1 ++ l2) = (s.runEvents l1).runEvents l2 := by
  simp [JSState.runEvents, List.foldl_append]

theorem js_sources_none_preserved (id : String) (evs : List JSEvent) :
    ∀ s : JSState, s.reportAnonymousScripts = false →
      SMap.get s.scriptSources id = none →
      (∀ ev ∈ evs, parsedForHasEmptyURL id ev = true) →
      SMap.get (s.runEvents evs).scriptSources id = none := by
  induction evs with
  | nil => intro s _ hs _; exact hs
  | cons ev evs ih =>
    intro s hflag hs hall
    have hev := hall ev (List.mem_cons_self ev evs)
    have hstep : SMap.get (s.handle ev).scriptSources id = none := by
      cases ev with
      | scriptParsed i u f =>
        by_cases hurl : u = EVALUATION_SCRIPT_URL
        · simp [JSState.handle, JSState.onScriptParsed, hurl, hs]
        · by_cases hu : u = ""
          · simp [JSState.handle, JSState.onScriptParsed, hurl, hu, hflag, hs]
          · have hi : i ≠ id := by
              simp only [parsedForHasEmptyURL] at hev
              rcases Bool.or_eq_true_iff.mp hev with h | h
              · exact fun he => by simp [he] at h
              · exact absurd (by simpa using h) hu
            cases f with
            | some t =>
              simp only [JSState.handle, JSState.onScriptParsed, if_neg hurl]
              rw [if_neg (by simp [hu])]
              exact (SMap.get_set_ne _ i id _ hi).trans hs
            | none => simp [JSState.handle, JSState.onScriptParsed, hurl, hu, hs]
      | executionContextsCleared =>
        simp only [JSState.handle, JSState.onExecutionContextsCleared]
        split
        · exact hs
        · simp [SMap.clear, SMap.get]
    have hflag' : (s.handle ev).reportAnonymousScripts = s.reportAnonymousScripts :=
      (JSState.handle_flags s ev).2.2.1
    simpa [JSState.runEvents, List.foldl_cons] using
      ih (s.handle ev) (hflag'.trans hflag) hstep
        (fun ev' h' => hall ev' (List.mem_cons_of_mem ev h'))

theorem js_registration_preserved (id : String) (evs : List JSEvent) :
    ∀ s : JSState, (∀ ev ∈ evs, jsLeavesAlone id ev = true) →
      SMap.get (s.runEvents evs).scriptURLs id = SMap.get s.scriptURLs id ∧
      SMap.get (s.runEvents evs).scriptSources id = SMap.get s.scriptSources id := by
  induction evs with
  | nil => intro s _; exact ⟨rfl, rfl⟩
  | cons ev evs ih =>
    intro s hall
    have hev := hall ev (List.mem_cons_self ev evs)
    have hstep : SMap.get (s.handle ev).scriptURLs id = SMap.get s.scriptURLs id ∧
        SMap.get (s.handle ev).scriptSources id = SMap.get s.scriptSources id := by
      cases ev with
      | scriptParsed i u f =>
        have hi : i ≠ id := by simpa [jsLeavesAlone] using hev
        by_cases hurl : u = EVALUATION_SCRIPT_URL
        · simp [JSState.handle, JSState.onScriptParsed, hurl]
        · by_cases hskip : u = "" ∧ !s.reportAnonymousScripts
          · simp [JSState.handle, JSState.onScriptParsed, hurl, hskip]
          · cases f with
            | some t =>
              simp only [JSState.handle, JSState.onScriptParsed, if_neg hurl, if_neg hskip]
              exact ⟨SMap.get_set_ne _ i id _ hi, SMap.get_set_ne _ i id _ hi⟩
            | none => simp [JSState.handle, JSState.onScriptParsed, hurl, hskip]
      | executionContextsCleared => simp [jsLeavesAlone] at hev
    have hrest := ih (s.handle ev) (fun ev' h' => hall ev' (List.mem_cons_of_mem ev h'))
    simp only [JSState.runEvents, List.foldl_cons] at hrest ⊢
    exact ⟨hrest.1.trans hstep.1, hrest.2.trans hstep.2⟩

/-- C7: a script-parsed event with an empty URL: with
`reportAnonymousScripts = false` the script is never registered and never
appears in `stop`'s output; with `reportAnonymousScripts = true`, if its text
was fetched and no later event clears or overwrites it, the script appears in
the output under the synthesized URL `"debugger://VM<id>"`. -/
theorem claim_C7_anonymous_script_policy (s0 : JSState) (id txt : String)
    (profile : List ScriptCoverageEntry) :
    (∀ evs : List JSEvent, s0.reportAnonymousScripts = false →
      SMap.get s0.scriptSources id = none →
      (∀ ev ∈ evs, parsedForHasEmptyURL id ev = true) →
      ∀ e : ScriptCoverageEntry, e.scriptId = id →
        (s0.runEvents evs).entryFor e = none ∧
        (s0.enabled = true →
          (s0.runEvents evs).stop (some profile) =
            .ok ({ s0.runEvents evs with enabled := false },
                 profile.filterMap ({ s0.runEvents evs with enabled := false }).entryFor) ∧
          ({ s0.runEvents evs with enabled := false }).entryFor e = none)) ∧
    (∀ evs1 evs2 : List JSEvent, s0.reportAnonymousScripts = true →
      (∀ ev ∈ evs2, jsLeavesAlone id ev = true) →
      ∀ e : ScriptCoverageEntry, e.scriptId = id → e ∈ profile →
      s0.enabled = true →
      ∃ out, (s0.runEvents (evs1 ++ .scriptParsed id "" (some txt) :: evs2)).stop (some profile) =
          .ok ({ s0.runEvents (evs1 ++ .scriptParsed id "" (some txt) :: evs2) with
                   enabled := false }, out) ∧
        JSEntry.mk ("debugger://VM" ++ id)
          (convertToDisjointRanges (e.functions.flatMap FunctionCoverage.ranges)) txt
          (if s0.includeRawScriptCoverage then some e else none) ∈ out) := by
  constructor
  · intro evs hflag hs hall e heid
    have hnone : SMap.get (s0.runEvents evs).scriptSources e.scriptId = none := by
      rw [heid]; exact js_sources_none_preserved id evs s0 hflag hs hall
    have hentry : (s0.runEvents evs).entryFor e = none := by
      simp [JSState.entryFor, hnone]
    refine ⟨hentry, fun hen => ?_⟩
    have hen' : (s0.runEvents evs).enabled = true :=
      (JSState.runEvents_flags s0 evs).1.trans hen
    exact ⟨by simp [JSState.stop, hen'], hentry⟩
  · intro evs1 evs2 hflag hleave e heid hmem hen
    set sMid := (s0.runEvents evs1).handle (.scriptParsed id "" (some txt)) with hsMid
    have hsplit : s0.runEvents (evs1 ++ .scriptParsed id "" (some txt) :: evs2) =
        sMid.runEvents evs2 := by
      rw [JSState.runEvents_append]
      rfl
    have hflag1 : (s0.runEvents evs1).reportAnonymousScripts = true :=
      (JSState.runEvents_flags s0 evs1).2.2.1.trans hflag
    have hmid : SMap.get sMid.scriptURLs id = some "" ∧
        SMap.get sMid.scriptSources id = some txt := by
      rw [hsMid]
      have hne : ("" : String) ≠ EVALUATION_SCRIPT_URL := by decide
      simp only [JSState.handle, JSState.onScriptParsed, if_neg hne, hflag1,
        Bool.not_true, and_false, if_false]
      exact ⟨SMap.get_set_self _ id "", SMap.get_set_self _ id txt⟩
    have hfin := js_registration_preserved id evs2 sMid hleave
    have hurl : SMap.get (sMid.runEvents evs2).scriptURLs id = some "" :=
      hfin.1.trans hmid.1
    have htxt : SMap.get (sMid.runEvents evs2).scriptSources id = some txt :=
      hfin.2.trans hmid.2
    have hflagF : (sMid.runEvents evs2).reportAnonymousScripts = true := by
      rw [hsplit.symm]
      exact (JSState.runEvents_flags s0 _).2.2.1.trans hflag
    have hrawF : (sMid.runEvents evs2).includeRawScriptCoverage = s0.includeRawScriptCoverage := by
      rw [hsplit.symm]
      exact (JSState.runEvents_flags s0 _).2.2.2
    have henF : (sMid.runEvents evs2).enabled = true := by
      rw [hsplit.symm]
      exact (JSState.runEvents_flags s0 _).1.trans hen
    have hentry : (sMid.runEvents evs2).entryFor e =
        some (JSEntry.mk ("debugger://VM" ++ id)
          (convertToDisjointRanges (e.functions.flatMap FunctionCoverage.ranges)) txt
          (if s0.includeRawScriptCoverage then some e else none)) := by
      simp [JSState.entryFor, JSState.resolveURL, heid, hurl, htxt, hflagF, hrawF]
    refine ⟨profile.filterMap ({ sMid.runEvents evs2 with enabled := false }).entryFor, ?_, ?_⟩
    · rw [hsplit]
      simp [JSState.stop, henF]
    · have hfix : ({ sMid.runEvents evs2 with enabled := false } : JSState).entryFor e =
          (sMid.runEvents evs2).entryFor e := rfl
      exact List.mem_filterMap.mpr ⟨e, hmem, hfix.trans hentry⟩

/-- Witness for C7 on concrete sessions: with the flag off the anonymous
script is skipped; with it on, it is reported as `debugger://VM42`. -/
theorem claim_C7_anonymous_script_policy_witness :
    (JSState.runEvents ⟨true, [], [], true, false, false⟩
        [.scriptParsed "42" "" (some "x")]).entryFor ⟨"42", []⟩ = none ∧
    ∃ out, (JSState.runEvents ⟨true, [], [], true, true, false⟩
        [.scriptParsed "42" "" (some "x")]).stop (some [⟨"42", []⟩]) =
        .ok ({ JSState.runEvents ⟨true, [], [], true, true, false⟩
                 [.scriptParsed "42" "" (some "x")] with enabled := false }, out) ∧
      JSEntry.mk "debugger://VM42" (convertToDisjointRanges []) "x" none ∈ out := by
  constructor
  · exact ((claim_C7_anonymous_script_policy ⟨true, [], [], true, false, false⟩ "42" "x"
      [⟨"42", []⟩]).1 [.scriptParsed "42" "" (some "x")] rfl rfl (by decide)
      ⟨"42", []⟩ rfl).1
  · have h := (claim_C7_anonymous_script_policy ⟨true, [], [], true, true, false⟩ "42" "x"
      [⟨"42", []⟩]).2 [] [] rfl (by decide) ⟨"42", []⟩ rfl (by decide) rfl
    simpa using h


theorem CSSState.runEvents_appendCss (s : CSSState) (l1 l2 : List CSSEvent) :
    s.runEvents (l1 ++ l2) = (s.runEvents l1).runEvents l2 := by
  simp [CSSState.runEvents, List.foldl_append]

theorem js_sources_stay_none (id : String) (report : Bool) (evs : List JSEvent) :
    ∀ s : JSState, s.reportAnonymousScripts = report →
      SMap.get s.scriptSources id = none →
      (∀ ev ∈ evs, jsDoesNotRegister report id ev = true) →
      SMap.get (s.runEvents evs).scriptSources id = none := by
  induction evs with
  | nil => intro s _ hs _; exact hs
  | cons ev evs ih =>
    intro s hflag hs hall
    have hev := hall ev (List.mem_cons_self ev evs)
    have hstep : SMap.get (s.handle ev).scriptSources id = none := by
      cases ev with
      | scriptParsed i u f =>
        by_cases hi : i = id
        · subst hi
          simp only [jsDoesNotRegister, bne_self_eq_false, Bool.false_or] at hev
          rcases Bool.or_eq_true_iff.mp hev with hev | hf
          · rcases Bool.or_eq_true_iff.mp hev with hu | hanon
            · have : u = EVALUATION_SCRIPT_URL := by simpa using hu
              simp [JSState.handle, JSState.onScriptParsed, this, hs]
            · obtain ⟨hu, hrep⟩ := Bool.and_eq_true_iff.mp hanon
              have hu' : u = "" := by simpa using hu
              have hrep' : s.reportAnonymousScripts = false := by
                rw [hflag]; simpa using hrep
              by_cases hurl : u = EVALUATION_SCRIPT_URL
              · simp [JSState.handle, JSState.onScriptParsed, hurl, hs]
              · simp [JSState.handle, JSState.onScriptParsed, hurl, hu', hrep', hs]
          · have hf' : f = none := by
              cases f with
              | none => rfl
              | some t => simp at hf
            subst hf'
            simp only [JSState.handle, JSState.onScriptParsed]
            split
            · exact hs
            · split
              · exact hs
              · exact hs
        · simp only [JSState.handle, JSState.onScriptParsed]
          split
          · exact hs
          · split
            · exact hs
            · cases f with
              | some t => exact (SMap.get_set_ne _ i id _ hi).trans hs
              | none => exact hs
      | executionContextsCleared =>
        simp only [JSState.handle, JSState.onExecutionContextsCleared]
        split
        · exact hs
        · simp [SMap.clear, SMap.get]
    have hflag' : (s.handle ev).reportAnonymousScripts = s.reportAnonymousScripts :=
      (JSState.handle_flags s ev).2.2.1
    simpa [JSState.runEvents, List.foldl_cons] using
      ih (s.handle ev) (hflag'.trans hflag) hstep
        (fun ev' h' => hall ev' (List.mem_cons_of_mem ev h'))

theorem css_urls_stay_none (id : String) (evs : List CSSEvent) :
    ∀ s : CSSState, SMap.get s.stylesheetURLs id = none →
      (∀ ev ∈ evs, cssDoesNotRegister id ev = true) →
      SMap.get (s.runEvents evs).stylesheetURLs id = none := by
  induction evs with
  | nil => intro s hs _; exact hs
  | cons ev evs ih =>
    intro s hs hall
    have hev := hall ev (List.mem_cons_self ev evs)
    have hstep : SMap.get (s.handle ev).stylesheetURLs id = none := by
      cases ev with
      | styleSheetAdded i u f =>
        by_cases hi : i = id
        · subst hi
          simp only [cssDoesNotRegister, bne_self_eq_false, Bool.false_or] at hev
          rcases Bool.or_eq_true_iff.mp hev with hu | hf
          · have hu' : u = "" := by simpa using hu
            simp [CSSState.handle, CSSState.onStyleSheet, hu', hs]
          · have hf' : f = none := by
              cases f with
              | none => rfl
              | some t => simp at hf
            subst hf'
            simp only [CSSState.handle, CSSState.onStyleSheet]
            split
            · exact hs
            · exact hs
        · simp only [CSSState.handle, CSSState.onStyleSheet]
          split
          · exact hs
          · cases f with
            | some t => exact (SMap.get_set_ne _ i id _ hi).trans hs
            | none => exact hs
      | executionContextsCleared =>
        simp only [CSSState.handle, CSSState.onExecutionContextsCleared]
        split
        · exact hs
        · simp [SMap.clear, SMap.get]
    simpa [CSSState.runEvents, List.foldl_cons] using
      ih (s.handle ev) hstep (fun ev' h' => hall ev' (List.mem_cons_of_mem ev h'))

/-- C8: with `resetOnNavigation = true`, after a contexts-cleared event any
script or stylesheet whose registration did not complete after the clear is
absent from the registries, is skipped by `JSCoverage.stop`, and generates no
entry in `CSSCoverage.stop`'s report (whose entries come exactly from the
registered keys). -/
theorem claim_C8_reset_isolates_navigation (js0 : JSState) (css0 : CSSState)
    (evsJ1 evsJ2 : List JSEvent) (evsC1 evsC2 : List CSSEvent) (id : String)
    (hjrn : js0.resetOnNavigation = true) (hcrn : css0.resetOnNavigation = true) :
    ((∀ ev ∈ evsJ2, jsDoesNotRegister js0.reportAnonymousScripts id ev = true) →
      SMap.get (js0.runEvents (evsJ1 ++ .executionContextsCleared :: evsJ2)).scriptSources id =
        none ∧
      ∀ e : ScriptCoverageEntry, e.scriptId = id →
        (js0.runEvents (evsJ1 ++ .executionContextsCleared :: evsJ2)).entryFor e = none) ∧
    ((∀ ev ∈ evsC2, cssDoesNotRegister id ev = true) →
      SMap.get (css0.runEvents (evsC1 ++ .executionContextsCleared :: evsC2)).stylesheetURLs id =
        none ∧
      id ∉ SMap.keys
        (css0.runEvents (evsC1 ++ .executionContextsCleared :: evsC2)).stylesheetURLs) ∧
    (∀ ruleUsage : List RuleUsage, ∀ s : CSSState,
      cssEntries s.stylesheetURLs s.stylesheetSources ruleUsage =
        (SMap.keys s.stylesheetURLs).map
          (cssEntryOf s.stylesheetURLs s.stylesheetSources ruleUsage)) := by
  refine ⟨?_, ?_, fun ruleUsage s => rfl⟩
  · intro hall
    have hsplit : js0.runEvents (evsJ1 ++ .executionContextsCleared :: evsJ2) =
        ((js0.runEvents evsJ1).handle .executionContextsCleared).runEvents evsJ2 := by
      rw [JSState.runEvents_append]; rfl
    set s1 := js0.runEvents evsJ1 with hs1
    have hrn1 : s1.resetOnNavigation = true := (JSState.runEvents_flags js0 evsJ1).2.1.trans hjrn
    have hclr : SMap.get (s1.handle .executionContextsCleared).scriptSources id = none := by
      simp [JSState.handle, JSState.onExecutionContextsCleared, hrn1, SMap.clear, SMap.get]
    have hflag : (s1.handle .executionContextsCleared).reportAnonymousScripts =
        js0.reportAnonymousScripts :=
      ((JSState.handle_flags s1 .executionContextsCleared).2.2.1).trans
        (JSState.runEvents_flags js0 evsJ1).2.2.1
    have hnone := js_sources_stay_none id js0.reportAnonymousScripts evsJ2 _ hflag hclr hall
    rw [← hsplit] at hnone
    refine ⟨hnone, fun e heid => ?_⟩
    have : SMap.get (js0.runEvents
        (evsJ1 ++ .executionContextsCleared :: evsJ2)).scriptSources e.scriptId = none := by
      rw [heid]; exact hnone
    simp [JSState.entryFor, this]
  · intro hall
    have hsplit : css0.runEvents (evsC1 ++ .executionContextsCleared :: evsC2) =
        ((css0.runEvents evsC1).handle .executionContextsCleared).runEvents evsC2 := by
      rw [CSSState.runEvents_appendCss]; rfl
    set s1 := css0.runEvents evsC1 with hs1
    have hrn1 : s1.resetOnNavigation = true := (CSSState.runEvents_flagsCss css0 evsC1).2.trans hcrn
    have hclr : SMap.get (s1.handle .executionContextsCleared).stylesheetURLs id = none := by
      simp [CSSState.handle, CSSState.onExecutionContextsCleared, hrn1, SMap.clear, SMap.get]
    have hnone := css_urls_stay_none id evsC2 _ hclr hall
    rw [← hsplit] at hnone
    exact ⟨hnone, SMap.not_mem_keys_of_get_none _ id hnone⟩

/-- Witness for C8: a script and a sheet registered before the clear are gone
after it. -/
theorem claim_C8_reset_isolates_navigation_witness :
    (SMap.get (JSState.runEvents ⟨true, [], [], true, false, false⟩
        ([.scriptParsed "7" "u" (some "x")] ++ .executionContextsCleared :: [])).scriptSources
        "7" = none ∧
     (JSState.runEvents ⟨true, [], [], true, false, false⟩
        ([.scriptParsed "7" "u" (some "x")] ++
          .executionContextsCleared :: [])).entryFor ⟨"7", []⟩ = none) ∧
    (SMap.get (CSSState.runEvents ⟨true, [], [], true⟩
        ([.styleSheetAdded "3" "v" (some "y")] ++
          .executionContextsCleared :: [])).stylesheetURLs "3" = none ∧
     "3" ∉ SMap.keys (CSSState.runEvents ⟨true, [], [], true⟩
        ([.styleSheetAdded "3" "v" (some "y")] ++
          .executionContextsCleared :: [])).stylesheetURLs) := by
  have h := claim_C8_reset_isolates_navigation ⟨true, [], [], true, false, false⟩
    ⟨true, [], [], true⟩ [.scriptParsed "7" "u" (some "x")] []
    [.styleSheetAdded "3" "v" (some "y")] [] "7" rfl rfl
  have h2 := claim_C8_reset_isolates_navigation ⟨true, [], [], true, false, false⟩
    ⟨true, [], [], true⟩ [] [] [.styleSheetAdded "3" "v" (some "y")] [] "3" rfl rfl
  refine ⟨?_, ?_⟩
  · have := h.1 (by decide)
    exact ⟨this.1, this.2 ⟨"7", []⟩ rfl⟩
  · exact h2.2.1 (by decide)


/-! ### Comparator and sort lemmas -/

/-- The order `pointLe` used by the sort (comparator value `≤ 0`). -/
abbrev PLe (a b : Point) : Prop := pointLe a b = true

/-- Arithmetic characterization of the comparator order: lexicographic on
offset, then descending type, then length (descending for start points,
ascending for end points). -/
theorem pointLe_iff (a b : Point) : PLe a b ↔
    (a.offset < b.offset ∨ (a.offset = b.offset ∧ (b.type < a.type ∨ (a.type = b.type ∧
      ((a.type = 0 ∧ b.range.endOffset - b.range.startOffset ≤
          a.range.endOffset - a.range.startOffset) ∨
       (a.type ≠ 0 ∧ a.range.endOffset - a.range.startOffset ≤
          b.range.endOffset - b.range.startOffset)))))) := by
  simp only [PLe, pointLe]
  by_cases h1 : a.offset = b.offset <;> by_cases h2 : a.type = b.type <;>
    by_cases h3 : b.type = 0 <;> simp [h1, h2, h3] <;>
    first
    | omega
    | (split <;> omega)

theorem PLe_total (a b : Point) : PLe a b ∨ PLe b a := by
  rw [pointLe_iff, pointLe_iff]
  omega

theorem PLe_trans {a b c : Point} (h1 : PLe a b) (h2 : PLe b c) : PLe a c := by
  rw [pointLe_iff] at *
  omega

theorem PLe_offset {a b : Point} (h : PLe a b) : a.offset ≤ b.offset := by
  rw [pointLe_iff] at h
  omega

theorem PLe_of_offset_lt {a b : Point} (h : a.offset < b.offset) : PLe a b := by
  rw [pointLe_iff]
  omega

theorem mem_orderedInsertP {x a : Point} {l : List Point} :
    x ∈ orderedInsertP a l ↔ x = a ∨ x ∈ l := by
  induction l with
  | nil => simp [orderedInsertP]
  | cons b l ih =>
    simp only [orderedInsertP]
    split
    · simp [List.mem_cons]
    · simp [List.mem_cons, ih]
      tauto

theorem orderedInsertP_perm (a : Point) (l : List Point) :
    List.Perm (orderedInsertP a l) (a :: l) := by
  induction l with
  | nil => rfl
  | cons b l ih =>
    simp only [orderedInsertP]
    split
    · rfl
    · exact ((ih.cons b).trans (List.Perm.swap a b l))

theorem insertionSortP_perm (l : List Point) : List.Perm (insertionSortP l) l := by
  induction l with
  | nil => rfl
  | cons a l ih =>
    simpa [insertionSortP] using (orderedInsertP_perm a (insertionSortP l)).trans (ih.cons a)

theorem orderedInsertP_pairwise (a : Point) (l : List Point) (h : l.Pairwise PLe) :
    (orderedInsertP a l).Pairwise PLe := by
  induction l with
  | nil => simp [orderedInsertP, List.pairwise_cons]
  | cons b l ih =>
    rcases List.pairwise_cons.mp h with ⟨hb, hl⟩
    simp only [orderedInsertP]
    split
    · rename_i hab
      refine List.pairwise_cons.mpr ⟨?_, h⟩
      intro x hx
      rcases List.mem_cons.mp hx with hx | hx
      · exact hx ▸ hab
      · exact PLe_trans hab (hb x hx)
    · rename_i hab
      refine List.pairwise_cons.mpr ⟨?_, ih hl⟩
      intro x hx
      rcases mem_orderedInsertP.mp hx with hx | hx
      · rw [hx]
        rcases PLe_total a b with h' | h'
        · exact absurd h' hab
        · exact h'
      · exact hb x hx

theorem insertionSortP_pairwise (l : List Point) : (insertionSortP l).Pairwise PLe := by
  induction l with
  | nil => simp [insertionSortP]
  | cons a l ih => exact orderedInsertP_pairwise a (insertionSortP l) ih

theorem insertionSortP_of_pairwise (l : List Point) (h : l.Pairwise PLe) :
    insertionSortP l = l := by
  induction l with
  | nil => rfl
  | cons a l ih =>
    rcases List.pairwise_cons.mp h with ⟨ha, hl⟩
    rw [insertionSortP, ih hl]
    cases l with
    | nil => rfl
    | cons b l =>
      simp only [orderedInsertP]
      rw [if_pos (ha b (List.mem_cons_self b l))]


/-! ### Sweep-loop shape invariant -/

/-- Outcome of one scanning-loop iteration: `lastOffset` becomes the point's
offset, and the results either stay unchanged or (when the stack top is truthy
and the offset advanced) a covered segment ending at the point's offset is
recorded — freshly pushed, or coalesced with the previous segment. -/
theorem sweepStep_spec (st : SweepState) (p : Point) :
    (sweepStep st p).lastOffset = p.offset ∧
    ((sweepStep st p).resultsRev = st.resultsRev ∨
     (st.lastOffset < p.offset ∧
      ((st.resultsRev = [] ∧ (sweepStep st p).resultsRev = [⟨st.lastOffset, p.offset⟩]) ∨
       (∃ r rest, st.resultsRev = r :: rest ∧ r.endPos = st.lastOffset ∧
          (sweepStep st p).resultsRev = ⟨r.start, p.offset⟩ :: rest) ∨
       (∃ r rest, st.resultsRev = r :: rest ∧ r.endPos ≠ st.lastOffset ∧
          (sweepStep st p).resultsRev = ⟨st.lastOffset, p.offset⟩ :: r :: rest)))) := by
  obtain ⟨stack, res, lo⟩ := st
  cases stack with
  | nil =>
    refine ⟨?_, Or.inl ?_⟩ <;> by_cases ht : p.type = 0 <;> simp [sweepStep, ht]
  | cons top stackRest =>
    by_cases hc : lo < p.offset ∧ 0 < top
    · cases res with
      | nil =>
        refine ⟨?_, Or.inr ⟨hc.1, Or.inl ⟨rfl, ?_⟩⟩⟩ <;>
          by_cases ht : p.type = 0 <;> simp [sweepStep, ht, hc]
      | cons r rrest =>
        by_cases hr : r.endPos = lo
        · refine ⟨?_, Or.inr ⟨hc.1, Or.inr (Or.inl ⟨r, rrest, rfl, hr, ?_⟩)⟩⟩ <;>
            by_cases ht : p.type = 0 <;> simp [sweepStep, ht, hc, hr]
        · refine ⟨?_, Or.inr ⟨hc.1, Or.inr (Or.inr ⟨r, rrest, rfl, hr, ?_⟩)⟩⟩ <;>
            by_cases ht : p.type = 0 <;> simp [sweepStep, ht, hc, hr]
    · refine ⟨?_, Or.inl ?_⟩ <;> by_cases ht : p.type = 0 <;> simp [sweepStep, ht, hc]

/-- Along a sorted point list the scanning loop only accumulates nonempty,
strictly separated segments (newest first). -/
theorem sweep_fold_shape (l : List Point) (hsort : l.Pairwise PLe) :
    ∀ st : SweepState,
      (∀ seg ∈ st.resultsRev, seg.start < seg.endPos) →
      st.resultsRev.Pairwise (fun x y => y.endPos < x.start) →
      (st.resultsRev = [] ∨
        ((∀ seg ∈ st.resultsRev.head?, seg.endPos ≤ st.lastOffset) ∧
         ∀ p ∈ l, st.lastOffset ≤ p.offset)) →
      (∀ seg ∈ (l.foldl sweepStep st).resultsRev, seg.start < seg.endPos) ∧
      (l.foldl sweepStep st).resultsRev.Pairwise (fun x y => y.endPos < x.start) := by
  induction l with
  | nil => intro st h1 h2 _; exact ⟨h1, h2⟩
  | cons p l ih =>
    intro st h1 h2 h3
    rw [List.foldl_cons]
    have hsortl := (List.pairwise_cons.mp hsort).2
    have hpl : ∀ q ∈ l, p.offset ≤ q.offset :=
      fun q hq => PLe_offset ((List.pairwise_cons.mp hsort).1 q hq)
    obtain ⟨hlo, hcases⟩ := sweepStep_spec st p
    rcases hcases with heq | ⟨hlt, hrec⟩
    · refine ih hsortl _ (heq ▸ h1) (heq ▸ h2) ?_
      rcases h3 with h3 | ⟨h3a, h3b⟩
      · exact Or.inl (heq.trans h3)
      · refine Or.inr ⟨?_, ?_⟩
        · intro seg hseg
          rw [heq] at hseg
          exact (h3a seg hseg).trans (hlo ▸ h3b p (List.mem_cons_self p l))
        · intro q hq
          rw [hlo]
          exact hpl q hq
    · rcases hrec with ⟨hnil, hnew⟩ | ⟨r, rest, hres, hrend, hnew⟩ | ⟨r, rest, hres, hrend, hnew⟩
      · refine ih hsortl _ ?_ ?_ ?_
        · intro seg hseg
          rw [hnew] at hseg
          rcases List.mem_singleton.mp hseg with rfl
          exact hlt
        · rw [hnew]
          exact List.pairwise_singleton _ _
        · refine Or.inr ⟨?_, ?_⟩
          · intro seg hseg
            rw [hnew] at hseg
            simp only [List.head?_cons, Option.mem_def, Option.some_inj] at hseg
            rw [← hseg, hlo]
          · intro q hq
            rw [hlo]
            exact hpl q hq
      · -- coalesced with the previous segment
        have hrmem : r ∈ st.resultsRev := hres ▸ List.mem_cons_self r rest
        have hrlt : r.start < r.endPos := h1 r hrmem
        have hpair := hres ▸ h2
        rcases List.pairwise_cons.mp hpair with ⟨hrrest, hrestp⟩
        refine ih hsortl _ ?_ ?_ ?_
        · intro seg hseg
          rw [hnew] at hseg
          rcases List.mem_cons.mp hseg with rfl | hseg
          · exact lt_trans (lt_of_lt_of_le hrlt (le_of_eq hrend)) hlt
          · exact h1 seg (hres ▸ List.mem_cons_of_mem r hseg)
        · rw [hnew]
          exact List.pairwise_cons.mpr ⟨fun y hy => hrrest y hy, hrestp⟩
        · refine Or.inr ⟨?_, ?_⟩
          · intro seg hseg
            rw [hnew] at hseg
            simp only [List.head?_cons, Option.mem_def, Option.some_inj] at hseg
            rw [← hseg, hlo]
          · intro q hq
            rw [hlo]
            exact hpl q hq
      · -- pushed a fresh segment after a gap
        have hrmem : r ∈ st.resultsRev := hres ▸ List.mem_cons_self r rest
        have hrlt : r.start < r.endPos := h1 r hrmem
        have hpair := hres ▸ h2
        rcases List.pairwise_cons.mp hpair with ⟨hrrest, hrestp⟩
        have hrle : r.endPos ≤ st.lastOffset := by
          rcases h3 with h3 | ⟨h3a, _⟩
          · rw [h3] at hres; cases hres
          · apply h3a
            rw [hres]
            rfl
        have hrltlo : r.endPos < st.lastOffset := lt_of_le_of_ne hrle hrend
        refine ih hsortl _ ?_ ?_ ?_
        · intro seg hseg
          rw [hnew] at hseg
          rcases List.mem_cons.mp hseg with rfl | hseg
          · exact hlt
          · exact h1 seg (hres ▸ hseg)
        · rw [hnew]
          refine List.pairwise_cons.mpr ⟨?_, hpair⟩
          intro y hy
          rcases List.mem_cons.mp hy with rfl | hy
          · exact hrltlo
          · exact lt_trans (lt_trans (hrrest y hy) hrlt) hrltlo
        · refine Or.inr ⟨?_, ?_⟩
          · intro seg hseg
            rw [hnew] at hseg
            simp only [List.head?_cons, Option.mem_def, Option.some_inj] at hseg
            rw [← hseg, hlo]
          · intro q hq
            rw [hlo]
            exact hpl q hq

/-- The reducer's output consists of segments of width `> 1`, strictly
separated and in ascending order. -/
theorem convertToDisjointRanges_shape (rs : List CoverageRange) :
    (∀ seg ∈ convertToDisjointRanges rs, 1 < seg.endPos - seg.start) ∧
    (convertToDisjointRanges rs).Pairwise (fun x y => x.endPos < y.start) := by
  have h := sweep_fold_shape (insertionSortP (rs.flatMap pointsOf))
    (insertionSortP_pairwise _) ⟨[], [], 0⟩ (by simp) (by simp) (Or.inl rfl)
  constructor
  · intro seg hseg
    have := (List.mem_filter.mp hseg).2
    exact of_decide_eq_true this
  · unfold convertToDisjointRanges
    refine List.Pairwise.filter _ ?_
    rw [List.pairwise_reverse]
    exact h.2

/-- C3: for every input, the reducer's output ranges are pairwise disjoint,
sorted ascending by start offset, and of width at least 2. -/
theorem claim_C3_disjoint_sorted_wide (rs : List CoverageRange) :
    ((convertToDisjointRanges rs).Pairwise fun x y => x.endPos ≤ y.start) ∧
    ((convertToDisjointRanges rs).Pairwise fun x y => x.start < y.start) ∧
    ∀ seg ∈ convertToDisjointRanges rs, 2 ≤ seg.endPos - seg.start := by
  obtain ⟨hw, hp⟩ := convertToDisjointRanges_shape rs
  refine ⟨hp.imp le_of_lt, ?_, ?_⟩
  · refine hp.imp_of_mem ?_
    intro x y hx _ hxy
    have : x.start < x.endPos := by
      have := hw x hx
      omega
    omega
  · intro seg hseg
    have := hw seg hseg
    omega


/-! ### Idempotence of the reducer -/

theorem pointsList_offsets_increasing (l : List Segment)
    (h1 : ∀ s ∈ l, s.start < s.endPos)
    (h2 : l.Pairwise fun x y => x.endPos < y.start) :
    ((l.map fun seg => (⟨seg.start, seg.endPos, 1⟩ : CoverageRange)).flatMap
      pointsOf).Pairwise (fun p q => p.offset < q.offset) := by
  induction l with
  | nil => simp
  | cons s rest ih =>
    rcases List.pairwise_cons.mp h2 with ⟨hs, hrest⟩
    have h1s := h1 s (List.mem_cons_self s rest)
    have h1rest : ∀ t ∈ rest, t.start < t.endPos :=
      fun t ht => h1 t (List.mem_cons_of_mem s ht)
    simp only [List.map_cons, List.flatMap_cons]
    rw [List.pairwise_append]
    refine ⟨?_, ih h1rest hrest, ?_⟩
    · simp [pointsOf, h1s]
    · intro a ha b hb
      have hao : a.offset ≤ s.endPos := by
        simp only [pointsOf] at ha
        rcases List.mem_cons.mp ha with rfl | ha
        · simp
          omega
        · rcases List.mem_singleton.mp ha with rfl
          simp
      have hbo : ∃ t ∈ rest, t.start ≤ b.offset := by
        rcases List.mem_flatMap.mp hb with ⟨r, hr, hbr⟩
        rcases List.mem_map.mp hr with ⟨t, ht, rfl⟩
        refine ⟨t, ht, ?_⟩
        simp only [pointsOf] at hbr
        rcases List.mem_cons.mp hbr with rfl | hbr
        · simp
        · rcases List.mem_singleton.mp hbr with rfl
          simp
          exact le_of_lt (h1rest t ht)
      obtain ⟨t, ht, htb⟩ := hbo
      exact lt_of_le_of_lt hao (lt_of_lt_of_le (hs t ht) htb)

theorem sweep_separated (l : List Segment) :
    ∀ (acc : List Segment) (lo : Int),
      (∀ s ∈ l, s.start < s.endPos) →
      (l.Pairwise fun x y => x.endPos < y.start) →
      (∀ seg, acc.head? = some seg → ∀ s ∈ l, seg.endPos < s.start) →
      ∃ lo', ((l.map fun seg => (⟨seg.start, seg.endPos, 1⟩ : CoverageRange)).flatMap
        pointsOf).foldl sweepStep ⟨[], acc, lo⟩ = ⟨[], l.reverse ++ acc, lo'⟩ := by
  induction l with
  | nil => intro acc lo _ _ _; exact ⟨lo, rfl⟩
  | cons s rest ih =>
    intro acc lo h1 h2 hacc
    have h1s := h1 s (List.mem_cons_self s rest)
    have hstep1 : sweepStep ⟨[], acc, lo⟩ ⟨s.start, 0, ⟨s.start, s.endPos, 1⟩⟩ =
        ⟨[1], acc, s.start⟩ := by
      simp [sweepStep]
    have hstep2 : sweepStep ⟨[1], acc, s.start⟩ ⟨s.endPos, 1, ⟨s.start, s.endPos, 1⟩⟩ =
        ⟨[], s :: acc, s.endPos⟩ := by
      cases hc : acc with
      | nil => simp [sweepStep, h1s]
      | cons a as =>
        have hne : a.endPos ≠ s.start := by
          have := hacc a (by rw [hc]; rfl) s (List.mem_cons_self s rest)
          omega
        simp [sweepStep, h1s, hne]
    simp only [List.map_cons, List.flatMap_cons, pointsOf, List.cons_append, List.nil_append,
      List.foldl_cons, hstep1, hstep2]
    have hacc' : ∀ seg, (s :: acc).head? = some seg → ∀ t ∈ rest, seg.endPos < t.start := by
      intro seg hseg t ht
      simp only [List.head?_cons, Option.some_inj] at hseg
      rw [← hseg]
      exact (List.pairwise_cons.mp h2).1 t ht
    obtain ⟨lo', hrest⟩ := ih (s :: acc) s.endPos
      (fun t ht => h1 t (List.mem_cons_of_mem s ht)) (List.pairwise_cons.mp h2).2 hacc'
    rw [hrest]
    exact ⟨lo', by simp⟩

/-- C5: the range reducer is idempotent — reducing its own output, with each
output range given count 1, returns the same output. -/
theorem claim_C5_reducer_idempotent (rs : List CoverageRange) :
    convertToDisjointRanges ((convertToDisjointRanges rs).map fun seg =>
      ⟨seg.start, seg.endPos, 1⟩) = convertToDisjointRanges rs := by
  obtain ⟨hw, hp⟩ := convertToDisjointRanges_shape rs
  have h1 : ∀ s ∈ convertToDisjointRanges rs, s.start < s.endPos := by
    intro s hs
    have := hw s hs
    omega
  have hsorted : (((convertToDisjointRanges rs).map fun seg =>
      (⟨seg.start, seg.endPos, 1⟩ : CoverageRange)).flatMap pointsOf).Pairwise PLe :=
    (pointsList_offsets_increasing _ h1 hp).imp fun h => PLe_of_offset_lt h
  obtain ⟨lo', hfold⟩ := sweep_separated (convertToDisjointRanges rs) [] 0 h1 hp (by simp)
  conv_lhs => rw [convertToDisjointRanges]
  rw [insertionSortP_of_pairwise _ hsorted, hfold]
  simp only [List.append_nil, List.reverse_reverse]
  exact List.filter_eq_self.mpr fun seg hseg => decide_eq_true (hw seg hseg)


/-! ### Claim C1: counterexample -/

/-- Counterexample to C1 as stated: on the spec's own nested example, unit
position 3 is covered by the truthy input range `[0,10)` (count 1), yet it
appears in no output range — the inner zero-count range `[3,6)` overrides the
outer one, so output ranges are not unions of positions covered by "at least
one truthy range". -/
theorem claim_C1_counterexample :
    convertToDisjointRanges [⟨0, 10, 1⟩, ⟨3, 6, 0⟩] = [⟨0, 3⟩, ⟨6, 10⟩] ∧
    coveredByAnyTruthy [⟨0, 10, 1⟩, ⟨3, 6, 0⟩] 3 = true ∧
    (convertToDisjointRanges [⟨0, 10, 1⟩, ⟨3, 6, 0⟩]).countP
      (fun seg => decide (seg.start ≤ 3) && decide ((3 : Int) < seg.endPos)) = 0 := by
  refine ⟨by decide, by decide, by decide⟩


/-! ### Claim C1: sweep behaviour on one offset group -/

theorem sweepStep_stack (st : SweepState) (p : Point) :
    (sweepStep st p).stack =
      if p.type = 0 then p.range.count :: st.stack else st.stack.tail := by
  obtain ⟨stack, res, lo⟩ := st
  by_cases ht : p.type = 0 <;>
    cases stack with
    | nil => simp [sweepStep, ht]
    | cons top rest =>
      by_cases hc : lo < p.offset ∧ 0 < top
      · cases res with
        | nil => simp [sweepStep, ht, hc]
        | cons r rrest =>
          by_cases hr : r.endPos = lo <;> simp [sweepStep, ht, hc, hr]
      · simp [sweepStep, ht, hc]

theorem sweepStep_resultsRev_stay (st : SweepState) (p : Point)
    (h : ¬ st.lastOffset < p.offset) : (sweepStep st p).resultsRev = st.resultsRev := by
  obtain ⟨stack, res, lo⟩ := st
  by_cases ht : p.type = 0 <;>
    cases stack with
    | nil => simp [sweepStep, ht]
    | cons top rest =>
      have hc : ¬(lo < p.offset ∧ 0 < top) := fun hh => h hh.1
      simp [sweepStep, ht, hc]

/-- Within one group of equal-offset points, after the first point the loop
only performs stack operations. -/
theorem foldl_sweep_const_offset (o : Int) (g : List Point) (hg : ∀ q ∈ g, q.offset = o) :
    ∀ st : SweepState, st.lastOffset = o →
      g.foldl sweepStep st =
        ⟨g.foldl (fun sk q => if q.type = 0 then q.range.count :: sk else sk.tail) st.stack,
         st.resultsRev, o⟩ := by
  induction g with
  | nil =>
    intro st hlo
    obtain ⟨stack, res, lo⟩ := st
    simp only at hlo
    rw [hlo]
    rfl
  | cons q g ih =>
    intro st hlo
    have hq : q.offset = o := hg q (List.mem_cons_self q g)
    have hnotlt : ¬ st.lastOffset < q.offset := by rw [hlo, hq]; omega
    have hres := sweepStep_resultsRev_stay st q hnotlt
    have hstk := sweepStep_stack st q
    have hlo' : (sweepStep st q).lastOffset = o := (sweepStep_spec st q).1.trans hq
    rw [List.foldl_cons, ih (fun t ht => hg t (List.mem_cons_of_mem q ht)) _ hlo', hres, hstk]
    rfl

theorem foldl_stackOp_ends (gE : List Point) (hE : ∀ q ∈ gE, q.type = 1) :
    ∀ sk : List Int,
      gE.foldl (fun sk q => if q.type = 0 then q.range.count :: sk else sk.tail) sk =
        sk.drop gE.length := by
  induction gE with
  | nil => intro sk; rfl
  | cons q g ih =>
    intro sk
    have hq : q.type = 1 := hE q (List.mem_cons_self q g)
    rw [List.foldl_cons, if_neg (by omega), ih (fun t ht => hE t (List.mem_cons_of_mem q ht))]
    simp [← List.drop_one, List.drop_drop]
    rw [Nat.add_comm]

theorem foldl_stackOp_starts (gS : List Point) (hS : ∀ q ∈ gS, q.type = 0) :
    ∀ sk : List Int,
      gS.foldl (fun sk q => if q.type = 0 then q.range.count :: sk else sk.tail) sk =
        (gS.map fun q => q.range.count).reverse ++ sk := by
  induction gS with
  | nil => intro sk; rfl
  | cons q g ih =>
    intro sk
    have hq : q.type = 0 := hS q (List.mem_cons_self q g)
    rw [List.foldl_cons, if_pos hq, ih (fun t ht => hS t (List.mem_cons_of_mem q ht))]
    simp

/-- A sorted equal-offset group splits into its end points followed by its
start points. -/
theorem sorted_group_type_split (o : Int) (g : List Point) (hg : ∀ q ∈ g, q.offset = o)
    (hs : g.Pairwise PLe) (htype : ∀ q ∈ g, q.type = 0 ∨ q.type = 1) :
    ∃ gE gS, g = gE ++ gS ∧ (∀ q ∈ gE, q.type = 1) ∧ (∀ q ∈ gS, q.type = 0) := by
  induction g with
  | nil => exact ⟨[], [], rfl, by simp, by simp⟩
  | cons q g ih =>
    rcases List.pairwise_cons.mp hs with ⟨hq, hg'⟩
    rcases htype q (List.mem_cons_self q g) with ht | ht
    · refine ⟨[], q :: g, rfl, by simp, ?_⟩
      intro t htmem
      rcases List.mem_cons.mp htmem with rfl | htmem
      · exact ht
      · have hle := hq t htmem
        rw [pointLe_iff] at hle
        have hoq : q.offset = o := hg q (List.mem_cons_self q g)
        have hot : t.offset = o := hg t (List.mem_cons_of_mem q htmem)
        have : t.offset = q.offset := by omega
        rcases htype t (List.mem_cons_of_mem q htmem) with ht' | ht'
        · exact ht'
        · omega
    · obtain ⟨gE, gS, hsplit, hE, hS⟩ := ih (fun t htm => hg t (List.mem_cons_of_mem q htm)) hg'
        (fun t htm => htype t (List.mem_cons_of_mem q htm))
      refine ⟨q :: gE, gS, by rw [hsplit]; rfl, ?_, hS⟩
      intro t htmem
      rcases List.mem_cons.mp htmem with rfl | htmem
      · exact ht
      · exact hE t htmem

/-- Among a sorted group's start points, widths are non-increasing. -/
theorem starts_width_desc (o : Int) (gS : List Point) (hg : ∀ q ∈ gS, q.offset = o)
    (h0 : ∀ q ∈ gS, q.type = 0) (hs : gS.Pairwise PLe) :
    gS.Pairwise fun a b => rangeWidth b.range ≤ rangeWidth a.range := by
  refine hs.imp_of_mem ?_
  intro a b ha hb hab
  rw [pointLe_iff] at hab
  have hoa : a.offset = o := hg a ha
  have hob : b.offset = o := hg b hb
  have hta : a.type = 0 := h0 a ha
  have htb : b.type = 0 := h0 b hb
  simp only [rangeWidth]
  omega


/-! ### Claim C1: multiset and chain lemmas -/

theorem filter_flatMap_comm {α β : Type} (l : List α) (f : α → List β) (p : β → Bool) :
    (l.flatMap f).filter p = l.flatMap fun a => (f a).filter p := by
  induction l with
  | nil => rfl
  | cons a l ih => simp [List.flatMap_cons, List.filter_append, ih]

theorem flatMap_pointsOf_perm (l : List CoverageRange) :
    List.Perm (l.flatMap pointsOf) (l.map startPointOf ++ l.map endPointOf) := by
  induction l with
  | nil => rfl
  | cons r l ih =>
    simp only [List.flatMap_cons, List.map_cons, List.cons_append]
    show List.Perm (startPointOf r :: endPointOf r :: l.flatMap pointsOf) _
    exact List.Perm.cons _ ((ih.cons _).trans List.perm_middle.symm)

/-- A strictly-nested chain whose ends are all `≥ o` splits into an innermost
prefix ending exactly at `o` and survivors ending after `o`. -/
theorem chain_split_at (o : Int) (chain : List CoverageRange)
    (hnest : chain.Pairwise strictSub)
    (hge : ∀ r ∈ chain, o ≤ r.endOffset) :
    ∃ closers survivors, chain = closers ++ survivors ∧
      (∀ r ∈ closers, r.endOffset = o) ∧ (∀ r ∈ survivors, o < r.endOffset) := by
  induction chain with
  | nil => exact ⟨[], [], rfl, by simp, by simp⟩
  | cons c rest ih =>
    rcases List.pairwise_cons.mp hnest with ⟨hc, hrest⟩
    by_cases hce : c.endOffset = o
    · obtain ⟨cl, su, hsp, hcl, hsu⟩ := ih hrest (fun r hr => hge r (List.mem_cons_of_mem c hr))
      refine ⟨c :: cl, su, by rw [hsp]; rfl, ?_, hsu⟩
      intro r hr
      rcases List.mem_cons.mp hr with rfl | hr
      · exact hce
      · exact hcl r hr
    · refine ⟨[], c :: rest, rfl, by simp, ?_⟩
      intro r hr
      rcases List.mem_cons.mp hr with rfl | hr
      · have := hge r (List.mem_cons_self r rest)
        omega
      · have h1 := (hc r hr).2.1
        have h2 := hge c (List.mem_cons_self c rest)
        omega

/-- When the ranges containing `p` are exactly the members of a
strictly-nested chain, innermost-coverage at `p` is decided by the chain's
head count. -/
theorem innerCovered_iff_chain (rs chain : List CoverageRange) (p : Int)
    (hsub : ∀ r ∈ chain, r ∈ rs)
    (hnest : chain.Pairwise strictSub)
    (hcont : ∀ r, r ∈ chain ↔ r ∈ rs ∧ containsP r p = true) :
    innerCovered rs p = true ↔ ∃ c rest, chain = c :: rest ∧ 0 < c.count := by
  cases hchain : chain with
  | nil =>
    simp only [innerCovered, List.any_eq_true]
    constructor
    · rintro ⟨r, hr, hprop⟩
      rcases Bool.and_eq_true_iff.mp (Bool.and_eq_true_iff.mp hprop).1 with ⟨hcp, _⟩
      have : r ∈ chain := (hcont r).mpr ⟨hr, hcp⟩
      rw [hchain] at this
      cases this
    · rintro ⟨c, rest, hcr, _⟩
      cases hcr
  | cons c rest =>
    rw [hchain] at hsub hnest hcont
    rcases List.pairwise_cons.mp hnest with ⟨hcrest, _⟩
    have hcmem := (hcont c).mp (List.mem_cons_self c rest)
    constructor
    · simp only [innerCovered, List.any_eq_true]
      rintro ⟨r, hr, hprop⟩
      rcases Bool.and_eq_true_iff.mp hprop with ⟨h1, hmin⟩
      rcases Bool.and_eq_true_iff.mp h1 with ⟨hcp, hcount⟩
      have hrchain : r ∈ c :: rest := (hcont r).mpr ⟨hr, hcp⟩
      have hrc : r = c := by
        rcases List.mem_cons.mp hrchain with rfl | hrrest
        · rfl
        · have hwlt : rangeWidth r ≤ rangeWidth c := by
            have := List.all_eq_true.mp hmin c hcmem.1
            rcases Bool.or_eq_true_iff.mp this with h | h
            · rw [Bool.not_eq_true', hcmem.2] at h
              cases h
            · exact of_decide_eq_true h
          have := (hcrest r hrrest).2.2
          omega
      refine ⟨c, rest, rfl, ?_⟩
      rw [← hrc]
      exact of_decide_eq_true hcount
    · rintro ⟨c', rest', hcr, hcount⟩
      rw [← hchain] at hcr
      rw [hchain] at hcr
      injection hcr with hc1 hc2
      subst hc1
      subst hc2
      simp only [innerCovered, List.any_eq_true]
      refine ⟨c, hcmem.1, ?_⟩
      rw [Bool.and_eq_true_iff, Bool.and_eq_true_iff]
      refine ⟨⟨hcmem.2, decide_eq_true hcount⟩, List.all_eq_true.mpr ?_⟩
      intro s hsrs
      by_cases hsp : containsP s p = true
      · have hschain : s ∈ c :: rest := (hcont s).mpr ⟨hsrs, hsp⟩
        rcases List.mem_cons.mp hschain with rfl | hsrest
        · simp
        · have := (hcrest s hsrest).2.2
          rw [Bool.or_eq_true_iff]
          right
          exact decide_eq_true (by omega)
      · rw [Bool.or_eq_true_iff]
        left
        simp [hsp]

theorem countP_contains_eq_one (l : List Segment) (p : Int)
    (hpair : l.Pairwise fun x y => x.endPos < y.start)
    (seg : Segment) (hseg : seg ∈ l) (h1 : seg.start ≤ p) (h2 : p < seg.endPos) :
    l.countP (fun s => decide (s.start ≤ p) && decide (p < s.endPos)) = 1 := by
  induction l with
  | nil => cases hseg
  | cons a rest ih =>
    rcases List.pairwise_cons.mp hpair with ⟨ha, hrest⟩
    rcases List.mem_cons.mp hseg with rfl | hsegrest
    · rw [List.countP_cons]
      have hpa : (decide (seg.start ≤ p) && decide (p < seg.endPos)) = true := by
        rw [Bool.and_eq_true_iff]
        exact ⟨decide_eq_true h1, decide_eq_true h2⟩
      rw [hpa]
      have : rest.countP (fun s => decide (s.start ≤ p) && decide (p < s.endPos)) = 0 := by
        rw [List.countP_eq_zero]
        intro s hs
        have hga := ha s hs
        rw [Bool.and_eq_true_iff]
        rintro ⟨hs1, _⟩
        have hs1' := of_decide_eq_true hs1
        omega
      rw [this]
      simp
    · rw [List.countP_cons]
      have hlt := ha seg hsegrest
      have hnp : ¬(p < a.endPos) := by omega
      have hpa : (decide (a.start ≤ p) && decide (p < a.endPos)) = false := by
        simp [hnp]
      rw [hpa, ih hrest hsegrest]
      simp


theorem sweepStep_resultsRev_nil_stack (st : SweepState) (p : Point)
    (h : st.stack = []) : (sweepStep st p).resultsRev = st.resultsRev := by
  obtain ⟨stack, res, lo⟩ := st
  simp only at h
  subst h
  by_cases ht : p.type = 0 <;> simp [sweepStep, ht]

theorem sweepStep_resultsRev_low_top (st : SweepState) (p : Point) (top : Int)
    (rest : List Int) (h : st.stack = top :: rest)
    (hc : ¬(st.lastOffset < p.offset ∧ 0 < top)) :
    (sweepStep st p).resultsRev = st.resultsRev := by
  obtain ⟨stack, res, lo⟩ := st
  simp only at h
  subst h
  by_cases ht : p.type = 0 <;> simp [sweepStep, ht, hc]

theorem sweepStep_resultsRev_record (st : SweepState) (p : Point) (top : Int)
    (rest : List Int) (h : st.stack = top :: rest)
    (hlt : st.lastOffset < p.offset) (htop : 0 < top) :
    (sweepStep st p).resultsRev =
      match st.resultsRev with
      | [] => [⟨st.lastOffset, p.offset⟩]
      | r :: rrest =>
        if r.endPos = st.lastOffset then ⟨r.start, p.offset⟩ :: rrest
        else ⟨st.lastOffset, p.offset⟩ :: r :: rrest := by
  obtain ⟨stack, res, lo⟩ := st
  simp only at h hlt
  subst h
  have hc : lo < p.offset ∧ 0 < top := ⟨hlt, htop⟩
  cases res with
  | nil => by_cases ht : p.type = 0 <;> simp [sweepStep, ht, hc]
  | cons r rrest =>
    by_cases hr : r.endPos = lo <;> by_cases ht : p.type = 0 <;>
      simp [sweepStep, ht, hc, hr]

theorem flatMap_if_singleton {α β : Type} (l : List α) (p : α → Bool) (f : α → β) :
    (l.flatMap fun a => if p a then [f a] else []) = (l.filter p).map f := by
  induction l with
  | nil => rfl
  | cons a l ih =>
    by_cases hp : p a <;> simp [List.flatMap_cons, List.filter_cons, hp, ih]

/-- A nonempty sorted point list splits into its first equal-offset group and
a strictly later remainder. -/
theorem sorted_first_group :
    ∀ (L0 : List Point) (q0 : Point), (q0 :: L0).Pairwise PLe →
      ∃ g L', q0 :: L0 = g ++ L' ∧ g ≠ [] ∧ (∀ q ∈ g, q.offset = q0.offset) ∧
        (∀ q ∈ L', q0.offset < q.offset) := by
  intro L0
  induction L0 with
  | nil =>
    intro q0 _
    exact ⟨[q0], [], rfl, by simp, by simp, by simp⟩
  | cons q1 L1 ih =>
    intro q0 hsort
    rcases List.pairwise_cons.mp hsort with ⟨hq0, hrest⟩
    by_cases heq : q1.offset = q0.offset
    · obtain ⟨g1, L', hsplit, hg1ne, hg1off, hL'⟩ := ih q1 hrest
      refine ⟨q0 :: g1, L', by rw [List.cons_append, ← hsplit], by simp, ?_, ?_⟩
      · intro q hq
        rcases List.mem_cons.mp hq with rfl | hq
        · rfl
        · rw [hg1off q hq, heq]
      · intro q hq
        rw [← heq]
        exact hL' q hq
    · have hlt : q0.offset < q1.offset := by
        have := PLe_offset (hq0 q1 (List.mem_cons_self q1 L1))
        omega
      refine ⟨[q0], q1 :: L1, rfl, by simp, by simp, ?_⟩
      intro q hq
      rcases List.mem_cons.mp hq with rfl | hq
      · exact hlt
      · have h1 := (List.pairwise_cons.mp hrest).1 q hq
        have := PLe_offset h1
        omega


/-- Base case of the sweep correctness induction: no points remain, so the
chain and the pending ranges are empty and the accumulated segments already
characterize innermost coverage everywhere. -/
theorem sweep_main_nil (rs : List CoverageRange)
    (chain : List CoverageRange) (acc : List Segment) (lo : Option Int)
    (hperm : List.Perm [] (chain.map endPointOf ++
      (rs.filter fun r => afterOpt lo r.startOffset).flatMap pointsOf))
    (hmem : ∀ r : CoverageRange, r ∈ chain ↔ r ∈ rs ∧ activeAt lo r)
    (hacc1 : ∀ seg ∈ acc, seg.start < seg.endPos)
    (hacc2 : acc.Pairwise fun x y => y.endPos < x.start)
    (hacc3 : ∀ seg, acc.head? = some seg → ∃ v, lo = some v ∧ seg.endPos ≤ v)
    (hacc4 : ∀ p : Int, belowOpt lo p →
      (innerCovered rs p = true ↔ ∃ seg ∈ acc, seg.start ≤ p ∧ p < seg.endPos)) :
    ∀ p : Int, innerCovered rs p = true ↔ ∃ seg ∈ acc, seg.start ≤ p ∧ p < seg.endPos := by
  have hrhs := hperm.symm.eq_nil
  rcases List.append_eq_nil.mp hrhs with ⟨hchainnil, hpendnil⟩
  have hchain : chain = [] := List.map_eq_nil_iff.mp hchainnil
  have hpend : ∀ r ∈ rs, afterOpt lo r.startOffset = false := by
    intro r hr
    by_contra hcon
    have hmemp : r ∈ rs.filter fun r => afterOpt lo r.startOffset :=
      List.mem_filter.mpr ⟨hr, by revert hcon; cases afterOpt lo r.startOffset <;> simp⟩
    have := List.flatMap_eq_nil_iff.mp hpendnil r hmemp
    simp [pointsOf] at this
  have hacclow : ∀ seg ∈ acc, ∃ v, lo = some v ∧ seg.endPos ≤ v := by
    intro seg hseg
    cases hac : acc with
    | nil => rw [hac] at hseg; cases hseg
    | cons h0 t =>
      obtain ⟨v, hv, hle⟩ := hacc3 h0 (by rw [hac]; rfl)
      rw [hac] at hseg
      rcases List.mem_cons.mp hseg with rfl | hseg
      · exact ⟨v, hv, hle⟩
      · rw [hac] at hacc2 hacc1
        have h1 := (List.pairwise_cons.mp hacc2).1 seg hseg
        have h2 := hacc1 h0 (List.mem_cons_self h0 t)
        exact ⟨v, hv, by omega⟩
  intro p
  cases hlo : lo with
  | none =>
    have haccnil : acc = [] := by
      cases hac : acc with
      | nil => rfl
      | cons h0 t =>
        obtain ⟨v, hv, _⟩ := hacc3 h0 (by rw [hac]; rfl)
        rw [hlo] at hv
        cases hv
    have hrs : rs = [] := by
      cases hrs : rs with
      | nil => rfl
      | cons r rest =>
        have := hpend r (by rw [hrs]; exact List.mem_cons_self r rest)
        rw [hlo] at this
        simp [afterOpt] at this
    subst hrs
    simp [innerCovered, haccnil]
  | some v =>
    by_cases hpv : p < v
    · have := hacc4 p (by rw [hlo]; exact hpv)
      exact this
    · constructor
      · intro hcov
        exfalso
        simp only [innerCovered, List.any_eq_true] at hcov
        obtain ⟨r, hr, hprop⟩ := hcov
        rcases Bool.and_eq_true_iff.mp (Bool.and_eq_true_iff.mp hprop).1 with ⟨hcp, _⟩
        rcases Bool.and_eq_true_iff.mp hcp with ⟨hs1, hs2⟩
        have hs1' := of_decide_eq_true hs1
        have hs2' := of_decide_eq_true hs2
        have hnp : afterOpt lo r.startOffset = false := hpend r hr
        rw [hlo] at hnp
        simp only [afterOpt, decide_eq_false_iff_not] at hnp
        have hend : r.endOffset ≤ v := by
          have hnotchain : ¬(r ∈ chain) := by rw [hchain]; simp
          rw [hmem r, hlo] at hnotchain
          simp only [activeAt] at hnotchain
          by_contra hcon
          exact hnotchain ⟨hr, by omega, by omega⟩
        omega
      · rintro ⟨seg, hseg, h1, h2⟩
        obtain ⟨v', hv', hle⟩ := hacclow seg hseg
        rw [hlo] at hv'
        injection hv' with hv'
        omega


/-- Correctness of the scanning loop for well-nested inputs: along the sorted
point list the accumulated results grow into exactly the maximal runs of
innermost-covered unit positions. -/
theorem sweep_main (rs : List CoverageRange)
    (hne : ∀ r ∈ rs, r.startOffset < r.endOffset)
    (hpn : rs.Pairwise fun a b =>
      a.endOffset ≤ b.startOffset ∨ b.endOffset ≤ a.startOffset ∨
      strictSub b a ∨ strictSub a b) :
    ∀ n : Nat, ∀ L : List Point, L.length ≤ n →
      ∀ (chain : List CoverageRange) (acc : List Segment) (lo : Option Int),
      L.Pairwise PLe →
      List.Perm L (chain.map endPointOf ++
        (rs.filter fun r => afterOpt lo r.startOffset).flatMap pointsOf) →
      chain.Pairwise strictSub →
      (∀ r : CoverageRange, r ∈ chain ↔ r ∈ rs ∧ activeAt lo r) →
      (∀ seg ∈ acc, seg.start < seg.endPos) →
      (acc.Pairwise fun x y => y.endPos < x.start) →
      (∀ seg, acc.head? = some seg → ∃ v, lo = some v ∧ seg.endPos ≤ v) →
      (∀ p : Int, belowOpt lo p →
        (innerCovered rs p = true ↔ ∃ seg ∈ acc, seg.start ≤ p ∧ p < seg.endPos)) →
      (∀ seg ∈ (L.foldl sweepStep ⟨chain.map CoverageRange.count, acc, lo.getD 0⟩).resultsRev,
          seg.start < seg.endPos) ∧
      ((L.foldl sweepStep ⟨chain.map CoverageRange.count, acc, lo.getD 0⟩).resultsRev.Pairwise
          fun x y => y.endPos < x.start) ∧
      (∀ p : Int, innerCovered rs p = true ↔
        ∃ seg ∈ (L.foldl sweepStep ⟨chain.map CoverageRange.count, acc, lo.getD 0⟩).resultsRev,
          seg.start ≤ p ∧ p < seg.endPos) := by
  intro n
  induction n with
  | zero =>
    intro L hlen chain acc lo hsort hperm hnest hmem hacc1 hacc2 hacc3 hacc4
    have hLnil : L = [] := List.length_eq_zero.mp (Nat.le_zero.mp hlen)
    subst hLnil
    exact ⟨hacc1, hacc2, sweep_main_nil rs chain acc lo hperm hmem hacc1 hacc2 hacc3 hacc4⟩
  | succ n ihn =>
    intro L hlen chain acc lo hsort hperm hnest hmem hacc1 hacc2 hacc3 hacc4
    cases L with
    | nil =>
      exact ⟨hacc1, hacc2, sweep_main_nil rs chain acc lo hperm hmem hacc1 hacc2 hacc3 hacc4⟩
    | cons q0 L0 =>
      obtain ⟨g, L', hLsplit, hgne, hgoff, hL'off⟩ := sorted_first_group L0 q0 hsort
      have hsplitPW := List.pairwise_append.mp (hLsplit ▸ hsort)
      have hsortg : g.Pairwise PLe := hsplitPW.1
      have hsortL' : L'.Pairwise PLe := hsplitPW.2.1
      have hmemL : ∀ x ∈ (q0 :: L0), q0.offset ≤ x.offset := by
        intro x hx
        rw [hLsplit] at hx
        rcases List.mem_append.mp hx with hx | hx
        · rw [hgoff x hx]
        · exact le_of_lt (hL'off x hx)
      have hchain_end_ge : ∀ r ∈ chain, q0.offset ≤ r.endOffset := by
        intro r hr
        exact hmemL _ (hperm.mem_iff.mpr
          (List.mem_append_left _ (List.mem_map_of_mem endPointOf hr)))
      have hpend_start_ge :
          ∀ r ∈ rs.filter (fun r => afterOpt lo r.startOffset), q0.offset ≤ r.startOffset := by
        intro r hr
        exact hmemL (startPointOf r) (hperm.mem_iff.mpr
          (List.mem_append_right _
            (List.mem_flatMap.mpr ⟨r, hr, by simp [pointsOf, startPointOf]⟩)))
      have hpend_end_gt :
          ∀ r ∈ rs.filter (fun r => afterOpt lo r.startOffset), q0.offset < r.endOffset := by
        intro r hr
        have h1 := hpend_start_ge r hr
        have h2 := hne r (List.mem_filter.mp hr).1
        omega
      have hvo : ∀ v, lo = some v → v < q0.offset := by
        intro v hv
        have hq0mem := hperm.mem_iff.mp (List.mem_cons_self q0 L0)
        rcases List.mem_append.mp hq0mem with hq | hq
        · obtain ⟨r, hr, hrq⟩ := List.mem_map.mp hq
          have hact := ((hmem r).mp hr).2
          rw [hv] at hact
          simp only [activeAt] at hact
          have hoq : q0.offset = r.endOffset := by rw [← hrq]; rfl
          omega
        · obtain ⟨r, hr, hrq⟩ := List.mem_flatMap.mp hq
          have hro : afterOpt lo r.startOffset = true := (List.mem_filter.mp hr).2
          rw [hv] at hro
          have hvs : v < r.startOffset := by simpa [afterOpt] using hro
          have hner := hne r (List.mem_filter.mp hr).1
          have hcases : q0.offset = r.startOffset ∨ q0.offset = r.endOffset := by
            simp only [pointsOf, List.mem_cons, List.not_mem_nil, or_false] at hrq
            rcases hrq with rfl | rfl
            · left; rfl
            · right; rfl
          rcases hcases with h | h <;> omega
      obtain ⟨cl, su, hchsp, hclend, hsuend⟩ :=
        chain_split_at q0.offset chain hnest hchain_end_ge
      have hgperm : List.Perm g (cl.map endPointOf ++
          ((rs.filter fun r => afterOpt lo r.startOffset).filter
            fun r => decide (r.startOffset = q0.offset)).map startPointOf) := by
        have hfL : (q0 :: L0).filter (fun x => decide (x.offset = q0.offset)) = g := by
          have h1 : g.filter (fun x => decide (x.offset = q0.offset)) = g :=
            List.filter_eq_self.mpr fun q hq => decide_eq_true (hgoff q hq)
          have h2 : L'.filter (fun x => decide (x.offset = q0.offset)) = [] := by
            rw [List.filter_eq_nil_iff]
            intro q hq
            have h := hL'off q hq
            simp only [decide_eq_true_eq]
            omega
          rw [hLsplit, List.filter_append, h1, h2, List.append_nil]
        have hfC : (chain.map endPointOf).filter (fun x => decide (x.offset = q0.offset)) =
            cl.map endPointOf := by
          have h1 : (cl.map endPointOf).filter (fun x => decide (x.offset = q0.offset)) =
              cl.map endPointOf := by
            rw [List.filter_eq_self]
            intro x hx
            obtain ⟨r, hr, rfl⟩ := List.mem_map.mp hx
            exact decide_eq_true (hclend r hr)
          have h2 : (su.map endPointOf).filter (fun x => decide (x.offset = q0.offset)) = [] := by
            rw [List.filter_eq_nil_iff]
            intro x hx
            obtain ⟨r, hr, rfl⟩ := List.mem_map.mp hx
            have h := hsuend r hr
            simp only [endPointOf, decide_eq_true_eq]
            omega
          rw [hchsp, List.map_append, List.filter_append, h1, h2, List.append_nil]
        have hfP : ((rs.filter fun r => afterOpt lo r.startOffset).flatMap pointsOf).filter
            (fun x => decide (x.offset = q0.offset)) =
            ((rs.filter fun r => afterOpt lo r.startOffset).filter
              fun r => decide (r.startOffset = q0.offset)).map startPointOf := by
          rw [filter_flatMap_comm]
          have hcong : ∀ r ∈ (rs.filter fun r => afterOpt lo r.startOffset),
              (pointsOf r).filter (fun x => decide (x.offset = q0.offset)) =
                if decide (r.startOffset = q0.offset) = true then [startPointOf r] else [] := by
            intro r hr
            have hend := hpend_end_gt r hr
            have hne2 : ¬(r.endOffset = q0.offset) := by omega
            by_cases hs : r.startOffset = q0.offset
            · simp [pointsOf, startPointOf, List.filter_cons, hs, hne2]
            · simp [pointsOf, List.filter_cons, hs, hne2]
          rw [List.flatMap_congr hcong, flatMap_if_singleton]
        have hpf := hperm.filter (fun x => decide (x.offset = q0.offset))
        rw [hfL, List.filter_append, hfC, hfP] at hpf
        exact hpf
      have hpAtO_facts : ∀ r ∈ (rs.filter fun r => afterOpt lo r.startOffset).filter
          (fun r => decide (r.startOffset = q0.offset)),
          r ∈ rs ∧ r.startOffset = q0.offset ∧ q0.offset < r.endOffset := by
        intro r hr
        rcases List.mem_filter.mp hr with ⟨hrp, hro⟩
        exact ⟨(List.mem_filter.mp hrp).1, of_decide_eq_true hro, hpend_end_gt r hrp⟩
      have htype : ∀ q ∈ g, q.type = 0 ∨ q.type = 1 := by
        intro q hq
        rcases List.mem_append.mp (hgperm.mem_iff.mp hq) with hq' | hq'
        · obtain ⟨r, _, hrq⟩ := List.mem_map.mp hq'
          right
          rw [← hrq]
          rfl
        · obtain ⟨r, _, hrq⟩ := List.mem_map.mp hq'
          left
          rw [← hrq]
          rfl
      obtain ⟨gE, gS, hgsp, hgE1, hgS0⟩ :=
        sorted_group_type_split q0.offset g hgoff hsortg htype
      have hgEperm : List.Perm gE (cl.map endPointOf) := by
        have hfE : g.filter (fun q => decide (q.type = 1)) = gE := by
          have h1 : gE.filter (fun q => decide (q.type = 1)) = gE :=
            List.filter_eq_self.mpr fun q hq => decide_eq_true (hgE1 q hq)
          have h2 : gS.filter (fun q => decide (q.type = 1)) = [] := by
            rw [List.filter_eq_nil_iff]
            intro q hq
            have h := hgS0 q hq
            simp only [decide_eq_true_eq]
            omega
          rw [hgsp, List.filter_append, h1, h2, List.append_nil]
        have h1 : (cl.map endPointOf).filter (fun q => decide (q.type = 1)) =
            cl.map endPointOf := by
          rw [List.filter_eq_self]
          intro x hx
          obtain ⟨r, _, rfl⟩ := List.mem_map.mp hx
          rfl
        have h2 : (((rs.filter fun r => afterOpt lo r.startOffset).filter
            fun r => decide (r.startOffset = q0.offset)).map startPointOf).filter
              (fun q => decide (q.type = 1)) = [] := by
          rw [List.filter_eq_nil_iff]
          intro x hx
          obtain ⟨r, _, rfl⟩ := List.mem_map.mp hx
          simp [startPointOf]
        have h := hgperm.filter (fun q => decide (q.type = 1))
        rw [hfE, List.filter_append, h1, h2, List.append_nil] at h
        exact h
      have hgSperm : List.Perm gS
          (((rs.filter fun r => afterOpt lo r.startOffset).filter
            fun r => decide (r.startOffset = q0.offset)).map startPointOf) := by
        have hfS : g.filter (fun q => decide (q.type = 0)) = gS := by
          have h1 : gE.filter (fun q => decide (q.type = 0)) = [] := by
            rw [List.filter_eq_nil_iff]
            intro q hq
            have h := hgE1 q hq
            simp only [decide_eq_true_eq]
            omega
          have h2 : gS.filter (fun q => decide (q.type = 0)) = gS :=
            List.filter_eq_self.mpr fun q hq => decide_eq_true (hgS0 q hq)
          rw [hgsp, List.filter_append, h1, h2, List.nil_append]
        have h1 : (cl.map endPointOf).filter (fun q => decide (q.type = 0)) = [] := by
          rw [List.filter_eq_nil_iff]
          intro x hx
          obtain ⟨r, _, rfl⟩ := List.mem_map.mp hx
          simp [endPointOf]
        have h2 : (((rs.filter fun r => afterOpt lo r.startOffset).filter
            fun r => decide (r.startOffset = q0.offset)).map startPointOf).filter
              (fun q => decide (q.type = 0)) =
            ((rs.filter fun r => afterOpt lo r.startOffset).filter
              fun r => decide (r.startOffset = q0.offset)).map startPointOf := by
          rw [List.filter_eq_self]
          intro x hx
          obtain ⟨r, _, rfl⟩ := List.mem_map.mp hx
          rfl
        have h := hgperm.filter (fun q => decide (q.type = 0))
        rw [hfS, List.filter_append, h1, h2, List.nil_append] at h
        exact h
      have hgSrangePerm : List.Perm (gS.map fun q => q.range)
          ((rs.filter fun r => afterOpt lo r.startOffset).filter
            fun r => decide (r.startOffset = q0.offset)) := by
        have h1 := hgSperm.map fun q : Point => q.range
        have h2 : ((fun q : Point => q.range) ∘ startPointOf) = id := by
          funext r
          rfl
        simpa [List.map_map, h2] using h1
      have hlen' : L'.length ≤ n := by
        have h1 : (q0 :: L0).length = g.length + L'.length := by
          rw [hLsplit, List.length_append]
        have h2 : 1 ≤ g.length := by
          cases g with
          | nil => exact absurd rfl hgne
          | cons a b => simp
        simp only [List.length_cons] at h1 hlen
        omega
      -- shared facts for the record analysis
      have hacclow : ∀ seg ∈ acc, ∃ v, lo = some v ∧ seg.endPos ≤ v := by
        intro seg hseg
        cases hac : acc with
        | nil => rw [hac] at hseg; cases hseg
        | cons h0 t =>
          obtain ⟨v, hvv, hle⟩ := hacc3 h0 (by rw [hac]; rfl)
          rw [hac] at hseg
          rcases List.mem_cons.mp hseg with rfl | hseg
          · exact ⟨v, hvv, hle⟩
          · rw [hac] at hacc2 hacc1
            have h1 := (List.pairwise_cons.mp hacc2).1 seg hseg
            have h2 := hacc1 h0 (List.mem_cons_self h0 t)
            exact ⟨v, hvv, by omega⟩
      have hcontain : ∀ p : Int, ¬ belowOpt lo p → p < q0.offset →
          ∀ r : CoverageRange, r ∈ chain ↔ r ∈ rs ∧ containsP r p = true := by
        intro p hnb hpo r
        constructor
        · intro hr
          obtain ⟨hrs, hact⟩ := (hmem r).mp hr
          have hend := hchain_end_ge r hr
          cases hlo2 : lo with
          | none => rw [hlo2] at hact; simp [activeAt] at hact
          | some v =>
            rw [hlo2] at hact
            simp only [activeAt] at hact
            rw [hlo2] at hnb
            simp only [belowOpt, not_lt] at hnb
            refine ⟨hrs, ?_⟩
            simp only [containsP, Bool.and_eq_true_iff, decide_eq_true_eq]
            exact ⟨by omega, by omega⟩
        · rintro ⟨hrs, hcp⟩
          simp only [containsP, Bool.and_eq_true_iff, decide_eq_true_eq] at hcp
          have hnp : r ∉ rs.filter (fun r => afterOpt lo r.startOffset) := by
            intro hmemp
            have := hpend_start_ge r hmemp
            omega
          cases hlo2 : lo with
          | none =>
            exfalso
            exact hnp (List.mem_filter.mpr ⟨hrs, by rw [hlo2]; rfl⟩)
          | some v =>
            rw [hlo2] at hnb
            simp only [belowOpt, not_lt] at hnb
            have hsv : r.startOffset ≤ v := by
              by_contra hcon
              refine hnp (List.mem_filter.mpr ⟨hrs, ?_⟩)
              rw [hlo2]
              simp only [afterOpt]
              exact decide_eq_true (by omega)
            rw [hmem r, hlo2]
            simp only [activeAt]
            exact ⟨hrs, hsv, by omega⟩
      have hcovmid : ∀ p : Int, ¬ belowOpt lo p → p < q0.offset →
          (innerCovered rs p = true ↔ ∃ c crest, chain = c :: crest ∧ 0 < c.count) :=
        fun p h1 h2 => innerCovered_iff_chain rs chain p
          (fun r hr => ((hmem r).mp hr).1) hnest (hcontain p h1 h2)
      -- the state after the group: stack, and the recorded results
      have hgfold : ∃ acc'',
          g.foldl sweepStep ⟨chain.map CoverageRange.count, acc, lo.getD 0⟩ =
            ⟨((gS.map fun q => q.range).reverse ++ su).map CoverageRange.count,
              acc'', q0.offset⟩ ∧
          (∀ seg ∈ acc'', seg.start < seg.endPos) ∧
          (acc''.Pairwise fun x y => y.endPos < x.start) ∧
          (∀ seg, acc''.head? = some seg → seg.endPos ≤ q0.offset) ∧
          (∀ p : Int, p < q0.offset →
            (innerCovered rs p = true ↔ ∃ seg ∈ acc'', seg.start ≤ p ∧ p < seg.endPos)) := by
        obtain ⟨qh, gtail, rfl⟩ : ∃ qh gtail, g = qh :: gtail := by
          cases g with
          | nil => exact absurd rfl hgne
          | cons a b => exact ⟨a, b, rfl⟩
        have hqhoff : qh.offset = q0.offset := hgoff qh (List.mem_cons_self qh gtail)
        have hfoldg : ∀ st : SweepState,
            (qh :: gtail).foldl sweepStep st =
              ⟨(qh :: gtail).foldl
                (fun sk q => if q.type = 0 then q.range.count :: sk else sk.tail) st.stack,
               (sweepStep st qh).resultsRev, q0.offset⟩ := by
          intro st
          rw [List.foldl_cons]
          have h1 : (sweepStep st qh).lastOffset = q0.offset := (sweepStep_spec st qh).1.trans hqhoff
          rw [foldl_sweep_const_offset q0.offset gtail
            (fun t ht => hgoff t (List.mem_cons_of_mem qh ht)) _ h1, sweepStep_stack]
          rfl
        have hstackval : (qh :: gtail).foldl
            (fun sk q => if q.type = 0 then q.range.count :: sk else sk.tail)
            (chain.map CoverageRange.count) =
            ((gS.map fun q => q.range).reverse ++ su).map CoverageRange.count := by
          rw [hgsp, List.foldl_append, foldl_stackOp_ends gE hgE1, foldl_stackOp_starts gS hgS0]
          have hlen1 : gE.length = cl.length := by
            rw [hgEperm.length_eq, List.length_map]
          have hdrop : (chain.map CoverageRange.count).drop gE.length =
              su.map CoverageRange.count := by
            rw [hchsp, List.map_append, hlen1, ← List.length_map cl CoverageRange.count]
            exact List.drop_left _ _
          rw [hdrop]
          simp [List.map_append, List.map_reverse, List.map_map, Function.comp]
        obtain hch | ⟨c, crest, hch⟩ : chain = [] ∨ ∃ c crest, chain = c :: crest := by
          cases chain with
          | nil => exact Or.inl rfl
          | cons a b => exact Or.inr ⟨a, b, rfl⟩
        · have hstack0 : ((⟨chain.map CoverageRange.count, acc, lo.getD 0⟩ :
              SweepState)).stack = [] := by
            show chain.map CoverageRange.count = []
            rw [hch]
            rfl
          have hrec : (sweepStep ⟨chain.map CoverageRange.count, acc, lo.getD 0⟩ qh).resultsRev
              = acc := sweepStep_resultsRev_nil_stack _ qh hstack0
          refine ⟨acc, ?_, hacc1, hacc2, ?_, ?_⟩
          · rw [hfoldg, hstackval, hrec]
          · intro seg hseg
            obtain ⟨v, hlov, hle⟩ := hacc3 seg hseg
            have := hvo v hlov
            omega
          · intro p hp
            by_cases hbelow : belowOpt lo p
            · exact hacc4 p hbelow
            · constructor
              · intro h
                obtain ⟨c, crest, hc, _⟩ := (hcovmid p hbelow hp).mp h
                rw [hch] at hc
                cases hc
              · rintro ⟨seg, hseg, h1, h2⟩
                obtain ⟨v, hlov, hle⟩ := hacclow seg hseg
                rw [hlov] at hbelow
                simp only [belowOpt, not_lt] at hbelow
                omega
        · obtain ⟨v, hlov⟩ : ∃ v, lo = some v := by
            have hact := ((hmem c).mp (by rw [hch]; exact List.mem_cons_self c crest)).2
            cases hlo2 : lo with
            | none => rw [hlo2] at hact; simp [activeAt] at hact
            | some v => exact ⟨v, rfl⟩
          subst hlov
          simp only [Option.getD_some]
          have hv : v < q0.offset := hvo v rfl
          have hstline : ((⟨chain.map CoverageRange.count, acc,
              v⟩ : SweepState)).stack =
              c.count :: crest.map CoverageRange.count := by
            show chain.map CoverageRange.count = _
            rw [hch]
            rfl
          by_cases hcc : 0 < c.count
          · have hrec := sweepStep_resultsRev_record
              ⟨chain.map CoverageRange.count, acc, v⟩ qh
              c.count (crest.map CoverageRange.count) hstline
              (by show (v : Int) < qh.offset; rw [hqhoff]; exact hv)
              hcc
            rw [hqhoff] at hrec
            cases hac : acc with
            | nil =>
              rw [hac] at hrec
              simp only at hrec
              refine ⟨[⟨v, q0.offset⟩], ?_, ?_, ?_, ?_, ?_⟩
              · rw [hfoldg, hstackval, hrec]
              · intro seg hseg
                rcases List.mem_singleton.mp hseg with rfl
                exact hv
              · exact List.pairwise_singleton _ _
              · intro seg hseg
                simp only [List.head?_cons, Option.some_inj] at hseg
                rw [← hseg]
              · intro p hp
                by_cases hbelow : belowOpt (some v : Option Int) p
                · have h4 := hacc4 p hbelow
                  rw [hac] at h4
                  simp only [belowOpt] at hbelow
                  constructor
                  · intro h
                    exact absurd (h4.mp h) (by simp)
                  · rintro ⟨seg, hseg, h1, h2⟩
                    rcases List.mem_singleton.mp hseg with rfl
                    simp only at h1
                    omega
                · constructor
                  · intro _
                    exact ⟨⟨v, q0.offset⟩, List.mem_singleton_self _, by
                      simp only [belowOpt, not_lt] at hbelow
                      exact ⟨hbelow, hp⟩⟩
                  · intro _
                    exact (hcovmid p hbelow hp).mpr ⟨c, crest, hch, hcc⟩
            | cons r rrest =>
              rw [hac] at hrec
              simp only at hrec
              obtain ⟨v', hv', hrle⟩ := hacc3 r (by rw [hac]; rfl)
              injection hv' with hv'
              subst hv'
              have hrlt : r.start < r.endPos := hacc1 r (by rw [hac]; exact List.mem_cons_self r rrest)
              have hpw := hac ▸ hacc2
              rcases List.pairwise_cons.mp hpw with ⟨hrrest, hrestpw⟩
              by_cases hre : r.endPos = v
              · rw [if_pos hre] at hrec
                refine ⟨⟨r.start, q0.offset⟩ :: rrest, ?_, ?_, ?_, ?_, ?_⟩
                · rw [hfoldg, hstackval, hrec]
                · intro seg hseg
                  rcases List.mem_cons.mp hseg with rfl | hseg
                  · simp only
                    omega
                  · exact hacc1 seg (by rw [hac]; exact List.mem_cons_of_mem r hseg)
                · refine List.pairwise_cons.mpr ⟨?_, hrestpw⟩
                  intro y hy
                  exact hrrest y hy
                · intro seg hseg
                  simp only [List.head?_cons, Option.some_inj] at hseg
                  rw [← hseg]
                · intro p hp
                  by_cases hbelow : belowOpt (some v : Option Int) p
                  · have h4 := hacc4 p hbelow
                    rw [hac] at h4
                    simp only [belowOpt] at hbelow
                    rw [h4]
                    constructor
                    · rintro ⟨seg, hseg, h1, h2⟩
                      rcases List.mem_cons.mp hseg with heq | hseg
                      · exact ⟨⟨r.start, q0.offset⟩, List.mem_cons_self _ _, heq ▸ h1, hp⟩
                      · exact ⟨seg, List.mem_cons_of_mem _ hseg, h1, h2⟩
                    · rintro ⟨seg, hseg, h1, h2⟩
                      rcases List.mem_cons.mp hseg with rfl | hseg
                      · simp only at h1 h2
                        exact ⟨r, List.mem_cons_self _ _, h1, by omega⟩
                      · exact ⟨seg, List.mem_cons_of_mem _ hseg, h1, h2⟩
                  · constructor
                    · intro _
                      refine ⟨⟨r.start, q0.offset⟩, List.mem_cons_self _ _, ?_, hp⟩
                      simp only [belowOpt, not_lt] at hbelow
                      simp only
                      omega
                    · intro _
                      exact (hcovmid p hbelow hp).mpr ⟨c, crest, hch, hcc⟩
              · rw [if_neg hre] at hrec
                have hrltv : r.endPos < v := by omega
                refine ⟨⟨v, q0.offset⟩ :: r :: rrest, ?_, ?_, ?_, ?_, ?_⟩
                · rw [hfoldg, hstackval, hrec]
                · intro seg hseg
                  rcases List.mem_cons.mp hseg with rfl | hseg
                  · exact hv
                  · exact hacc1 seg (by rw [hac]; exact hseg)
                · refine List.pairwise_cons.mpr ⟨?_, hpw⟩
                  intro y hy
                  rcases List.mem_cons.mp hy with rfl | hy
                  · exact hrltv
                  · have := hrrest y hy
                    simp only
                    omega
                · intro seg hseg
                  simp only [List.head?_cons, Option.some_inj] at hseg
                  rw [← hseg]
                · intro p hp
                  by_cases hbelow : belowOpt (some v : Option Int) p
                  · have h4 := hacc4 p hbelow
                    rw [hac] at h4
                    simp only [belowOpt] at hbelow
                    rw [h4]
                    constructor
                    · rintro ⟨seg, hseg, h1, h2⟩
                      exact ⟨seg, List.mem_cons_of_mem _ hseg, h1, h2⟩
                    · rintro ⟨seg, hseg, h1, h2⟩
                      rcases List.mem_cons.mp hseg with rfl | hseg
                      · simp only at h1
                        omega
                      · exact ⟨seg, hseg, h1, h2⟩
                  · constructor
                    · intro _
                      refine ⟨⟨v, q0.offset⟩, List.mem_cons_self _ _, ?_, hp⟩
                      simp only [belowOpt, not_lt] at hbelow
                      exact hbelow
                    · intro _
                      exact (hcovmid p hbelow hp).mpr ⟨c, crest, hch, hcc⟩
          · have hrec := sweepStep_resultsRev_low_top
              ⟨chain.map CoverageRange.count, acc, v⟩ qh
              c.count (crest.map CoverageRange.count) hstline
              (fun hcon => hcc hcon.2)
            refine ⟨acc, ?_, hacc1, hacc2, ?_, ?_⟩
            · rw [hfoldg, hstackval, hrec]
            · intro seg hseg
              obtain ⟨v', hlov, hle⟩ := hacc3 seg hseg
              injection hlov with hlov
              subst hlov
              omega
            · intro p hp
              by_cases hbelow : belowOpt (some v : Option Int) p
              · exact hacc4 p hbelow
              · constructor
                · intro h
                  obtain ⟨c', crest', hc', hcc'⟩ := (hcovmid p hbelow hp).mp h
                  rw [hch] at hc'
                  injection hc' with h1 h2
                  subst h1
                  exact absurd hcc' hcc
                · rintro ⟨seg, hseg, h1, h2⟩
                  obtain ⟨v', hlov, hle⟩ := hacclow seg hseg
                  injection hlov with hlov
                  subst hlov
                  simp only [belowOpt, not_lt] at hbelow
                  omega
      have hperm' : List.Perm L'
          (((gS.map fun q => q.range).reverse ++ su).map endPointOf ++
            (rs.filter fun r => afterOpt (some q0.offset) r.startOffset).flatMap pointsOf) := by
        have hpendRest : (rs.filter fun r => afterOpt lo r.startOffset).filter
            (fun r => !decide (r.startOffset = q0.offset)) =
            rs.filter (fun r => afterOpt (some q0.offset) r.startOffset) := by
          rw [List.filter_filter]
          apply List.filter_congr
          intro r hr
          have hsome : ∀ w x : Int, afterOpt (some w) x = decide (w < x) := fun w x => rfl
          by_cases h1 : afterOpt lo r.startOffset = true
          · have hge := hpend_start_ge r (List.mem_filter.mpr ⟨hr, h1⟩)
            by_cases h2 : r.startOffset = q0.offset
            · rw [h2] at h1 ⊢
              simp [hsome]
            · have h3 : q0.offset < r.startOffset := by omega
              rw [h1]
              simp [hsome, h2, h3]
          · have hf : afterOpt lo r.startOffset = false := by
              revert h1
              cases afterOpt lo r.startOffset <;> simp
            rw [hf]
            cases hlo2 : lo with
            | none => rw [hlo2] at hf; simp [afterOpt] at hf
            | some v =>
              have hv := hvo v hlo2
              rw [hlo2] at hf
              simp only [afterOpt, decide_eq_false_iff_not] at hf
              have h3 : ¬(q0.offset < r.startOffset) := by omega
              simp [hsome, h3]
        have hsplit1 : List.Perm (rs.filter fun r => afterOpt lo r.startOffset)
            (((rs.filter fun r => afterOpt lo r.startOffset).filter
              fun r => decide (r.startOffset = q0.offset)) ++
             ((rs.filter fun r => afterOpt lo r.startOffset).filter
              fun r => !decide (r.startOffset = q0.offset))) :=
          (List.filter_append_perm _ _).symm
        have hrevE : List.Perm ((gS.map fun q => q.range).reverse.map endPointOf)
            ((((rs.filter fun r => afterOpt lo r.startOffset).filter
              fun r => decide (r.startOffset = q0.offset))).map endPointOf) :=
          ((List.reverse_perm _).map endPointOf).trans (hgSrangePerm.map endPointOf)
        have e1 : (↑g : Multiset Point) + ↑L' = ↑(chain.map endPointOf) +
            ↑((rs.filter fun r => afterOpt lo r.startOffset).flatMap pointsOf) := by
          rw [Multiset.coe_add, Multiset.coe_add, ← hLsplit]
          exact Multiset.coe_eq_coe.mpr hperm
        have e2 : (↑(chain.map endPointOf) : Multiset Point) =
            ↑(cl.map endPointOf) + ↑(su.map endPointOf) := by
          rw [Multiset.coe_add, hchsp, List.map_append]
        have e3 : (↑((rs.filter fun r => afterOpt lo r.startOffset).flatMap pointsOf) :
              Multiset Point) =
            ↑((((rs.filter fun r => afterOpt lo r.startOffset).filter
              fun r => decide (r.startOffset = q0.offset))).map startPointOf) +
            ↑((((rs.filter fun r => afterOpt lo r.startOffset).filter
              fun r => decide (r.startOffset = q0.offset))).map endPointOf) +
            ↑((rs.filter fun r => afterOpt (some q0.offset) r.startOffset).flatMap pointsOf) := by
          rw [Multiset.coe_add, Multiset.coe_add, ← hpendRest]
          refine Multiset.coe_eq_coe.mpr ?_
          refine (hsplit1.flatMap_right pointsOf).trans ?_
          rw [List.flatMap_append]
          exact (flatMap_pointsOf_perm _).append_right _
        have e4 : (↑g : Multiset Point) = ↑(cl.map endPointOf) +
            ↑((((rs.filter fun r => afterOpt lo r.startOffset).filter
              fun r => decide (r.startOffset = q0.offset))).map startPointOf) := by
          rw [Multiset.coe_add]
          exact Multiset.coe_eq_coe.mpr hgperm
        have hfinal : (↑g : Multiset Point) + ↑L' =
            ↑g + (↑((((rs.filter fun r => afterOpt lo r.startOffset).filter
              fun r => decide (r.startOffset = q0.offset))).map endPointOf) +
              ↑(su.map endPointOf) +
              ↑((rs.filter fun r => afterOpt (some q0.offset) r.startOffset).flatMap pointsOf)) := by
          rw [e1, e2, e3, e4]
          ac_rfl
        have hL'eq : (↑L' : Multiset Point) =
            ↑((((rs.filter fun r => afterOpt lo r.startOffset).filter
              fun r => decide (r.startOffset = q0.offset))).map endPointOf) +
            ↑(su.map endPointOf) +
            ↑((rs.filter fun r => afterOpt (some q0.offset) r.startOffset).flatMap pointsOf) :=
          add_left_cancel hfinal
        rw [← Multiset.coe_eq_coe, hL'eq, Multiset.coe_add, Multiset.coe_add]
        refine (Multiset.coe_eq_coe.mpr ?_)
        rw [List.map_append]
        refine List.Perm.append ?_ (List.Perm.refl _)
        exact (hrevE.symm.append_right _)
      have hRSrel : ∀ a ∈ rs, ∀ b ∈ rs, a ≠ b →
          (a.endOffset ≤ b.startOffset ∨ b.endOffset ≤ a.startOffset ∨
           strictSub b a ∨ strictSub a b) := by
        intro a ha b hb hab
        refine hpn.forall ?_ ha hb hab
        intro x y hxy
        rcases hxy with h | h | h | h
        · exact Or.inr (Or.inl h)
        · exact Or.inl h
        · exact Or.inr (Or.inr (Or.inr h))
        · exact Or.inr (Or.inr (Or.inl h))
      have hprefix_mem : ∀ r ∈ (gS.map fun q => q.range).reverse,
          r ∈ rs ∧ r.startOffset = q0.offset ∧ q0.offset < r.endOffset := by
        intro r hr
        rw [List.mem_reverse] at hr
        exact hpAtO_facts r (hgSrangePerm.mem_iff.mp hr)
      have hsu_mem : ∀ r ∈ su,
          r ∈ rs ∧ ∃ v, lo = some v ∧ r.startOffset ≤ v ∧ q0.offset < r.endOffset := by
        intro r hr
        have hrchain : r ∈ chain := by rw [hchsp]; exact List.mem_append_right cl hr
        obtain ⟨hrs, hact⟩ := (hmem r).mp hrchain
        cases hlo2 : lo with
        | none => rw [hlo2] at hact; simp [activeAt] at hact
        | some v =>
          rw [hlo2] at hact
          simp only [activeAt] at hact
          exact ⟨hrs, v, rfl, hact.1, hsuend r hr⟩
      have hnest' : ((gS.map fun q => q.range).reverse ++ su).Pairwise strictSub := by
        have hNodup : rs.Nodup := by
          refine List.Pairwise.imp_of_mem ?_ hpn
          intro a b ha hb hr heq
          subst heq
          have hnea := hne a ha
          rcases hr with h | h | h | h
          · omega
          · omega
          · simp only [strictSub, rangeWidth] at h; omega
          · simp only [strictSub, rangeWidth] at h; omega
        have hsortgS : gS.Pairwise PLe := (List.pairwise_append.mp (hgsp ▸ hsortg)).2.1
        have hgSoff : ∀ q ∈ gS, q.offset = q0.offset := fun q hq =>
          hgoff q (by rw [hgsp]; exact List.mem_append_right gE hq)
        have hwdesc := starts_width_desc q0.offset gS hgSoff hgS0 hsortgS
        have hwasc : ((gS.map fun q => q.range).reverse).Pairwise
            (fun x y => rangeWidth x ≤ rangeWidth y) := by
          rw [List.pairwise_reverse, List.pairwise_map]
          exact hwdesc
        have hprefix_nodup : ((gS.map fun q => q.range).reverse).Nodup := by
          have h1 : (((rs.filter fun r => afterOpt lo r.startOffset).filter
              fun r => decide (r.startOffset = q0.offset))).Nodup :=
            hNodup.sublist ((List.filter_sublist _).trans (List.filter_sublist _))
          rw [List.nodup_reverse]
          exact hgSrangePerm.symm.nodup h1
        have hprefix_pw : ((gS.map fun q => q.range).reverse).Pairwise strictSub := by
          refine List.Pairwise.imp_of_mem ?_ (hwasc.and hprefix_nodup)
          intro a b ha hb hab
          obtain ⟨hw, hne2⟩ := hab
          obtain ⟨ha1, ha2, ha3⟩ := hprefix_mem a ha
          obtain ⟨hb1, hb2, hb3⟩ := hprefix_mem b hb
          rcases hRSrel a ha1 b hb1 hne2 with h | h | h | h
          · exfalso; omega
          · exfalso; omega
          · exfalso
            simp only [strictSub, rangeWidth] at h hw
            omega
          · exact h
        have hcross : ∀ a ∈ (gS.map fun q => q.range).reverse, ∀ b ∈ su, strictSub a b := by
          intro a ha b hb
          obtain ⟨ha1, ha2, ha3⟩ := hprefix_mem a ha
          obtain ⟨hb1, v, hlov, hb2, hb3⟩ := hsu_mem b hb
          have hv := hvo v hlov
          have hne2 : a ≠ b := by
            intro heq
            rw [heq] at ha2
            omega
          rcases hRSrel a ha1 b hb1 hne2 with h | h | h | h
          · exfalso; omega
          · exfalso; omega
          · exfalso
            simp only [strictSub, rangeWidth] at h
            omega
          · exact h
        have hsu_pw : su.Pairwise strictSub :=
          hnest.sublist (by rw [hchsp]; exact List.sublist_append_right cl su)
        rw [List.pairwise_append]
        exact ⟨hprefix_pw, hsu_pw, hcross⟩
      have hmem' : ∀ r : CoverageRange,
          r ∈ (gS.map fun q => q.range).reverse ++ su ↔
            r ∈ rs ∧ activeAt (some q0.offset) r := by
        intro r
        simp only [activeAt]
        constructor
        · intro hr
          rcases List.mem_append.mp hr with hr | hr
          · obtain ⟨h1, h2, h3⟩ := hprefix_mem r hr
            exact ⟨h1, by omega, h3⟩
          · obtain ⟨h1, v, hlov, h2, h3⟩ := hsu_mem r hr
            have hv := hvo v hlov
            exact ⟨h1, by omega, h3⟩
        · rintro ⟨hrs, hso, hoe⟩
          by_cases hsq : r.startOffset = q0.offset
          · refine List.mem_append_left _ ?_
            rw [List.mem_reverse]
            refine hgSrangePerm.mem_iff.mpr ?_
            refine List.mem_filter.mpr ⟨List.mem_filter.mpr ⟨hrs, ?_⟩, decide_eq_true hsq⟩
            cases hlo2 : lo with
            | none => rfl
            | some v =>
              have hv := hvo v hlo2
              simp only [afterOpt, decide_eq_true_eq]
              omega
          · have hslt : r.startOffset < q0.offset := by omega
            have hnotpend : r ∉ rs.filter fun r => afterOpt lo r.startOffset := by
              intro hp
              have := hpend_start_ge r hp
              omega
            have hafterfalse : ¬(afterOpt lo r.startOffset = true) := by
              intro hcon
              exact hnotpend (List.mem_filter.mpr ⟨hrs, hcon⟩)
            cases hlo2 : lo with
            | none => rw [hlo2] at hafterfalse; exact absurd rfl hafterfalse
            | some v =>
              rw [hlo2] at hafterfalse
              simp only [afterOpt, decide_eq_true_eq] at hafterfalse
              have hv := hvo v hlo2
              have hrchain : r ∈ chain := by
                rw [hmem r, hlo2]
                simp only [activeAt]
                exact ⟨hrs, by omega, by omega⟩
              rw [hchsp] at hrchain
              rcases List.mem_append.mp hrchain with hr | hr
              · have := hclend r hr
                omega
              · exact List.mem_append_right _ hr
      obtain ⟨acc'', hfoldeq, ha1, ha2, ha3, ha4⟩ := hgfold
      have hmain := ihn L' hlen' ((gS.map fun q => q.range).reverse ++ su) acc''
        (some q0.offset) hsortL' hperm' hnest' hmem' ha1 ha2
        (fun seg hs => ⟨q0.offset, rfl, ha3 seg hs⟩)
        (fun p hp => ha4 p hp)
      rw [hLsplit, List.foldl_append, hfoldeq]
      exact hmain

theorem sweep_results_facts (rs : List CoverageRange) (h : ProperNested rs) :
    (∀ seg ∈ ((insertionSortP (rs.flatMap pointsOf)).foldl sweepStep
        ⟨[], [], 0⟩).resultsRev, seg.start < seg.endPos) ∧
    (((insertionSortP (rs.flatMap pointsOf)).foldl sweepStep
        ⟨[], [], 0⟩).resultsRev.Pairwise fun x y => y.endPos < x.start) ∧
    (∀ p : Int, innerCovered rs p = true ↔
      ∃ seg ∈ ((insertionSortP (rs.flatMap pointsOf)).foldl sweepStep
        ⟨[], [], 0⟩).resultsRev, seg.start ≤ p ∧ p < seg.endPos) := by
  have hfilter : (rs.filter fun r => afterOpt (none : Option Int) r.startOffset) = rs := by
    have he : (fun r : CoverageRange => afterOpt (none : Option Int) r.startOffset) =
        fun _ => true := rfl
    rw [he, List.filter_true]
  exact sweep_main rs h.1 h.2 (insertionSortP (rs.flatMap pointsOf)).length
    (insertionSortP (rs.flatMap pointsOf)) le_rfl [] [] none
    (insertionSortP_pairwise _)
    (by rw [List.map_nil, List.nil_append, hfilter]; exact insertionSortP_perm _)
    List.Pairwise.nil
    (fun r => ⟨fun hr => absurd hr (List.not_mem_nil r), fun hr => hr.2.elim⟩)
    (fun seg hs => absurd hs (List.not_mem_nil seg))
    List.Pairwise.nil
    (fun seg hs => by simp at hs)
    (fun p hp => hp.elim)

theorem results_separated {R : List Segment}
    (hpair : R.Pairwise fun x y => y.endPos < x.start) :
    ∀ x ∈ R, ∀ y ∈ R, x = y ∨ y.endPos < x.start ∨ x.endPos < y.start := by
  have hsym : Symmetric (fun x y : Segment =>
      x = y ∨ y.endPos < x.start ∨ x.endPos < y.start) := by
    intro a b hab
    rcases hab with h1 | h1 | h1
    · exact Or.inl h1.symm
    · exact Or.inr (Or.inr h1)
    · exact Or.inr (Or.inl h1)
  have h2 : R.Pairwise (fun x y : Segment =>
      x = y ∨ y.endPos < x.start ∨ x.endPos < y.start) :=
    hpair.imp fun hxy => Or.inr (Or.inl hxy)
  intro x hx y hy
  by_cases hxy : x = y
  · exact Or.inl hxy
  · exact h2.forall hsym hx hy hxy

theorem boundary_uncovered (rs : List CoverageRange) (R : List Segment)
    (hcov : ∀ p : Int, innerCovered rs p = true ↔
      ∃ seg ∈ R, seg.start ≤ p ∧ p < seg.endPos)
    (hwid : ∀ seg ∈ R, seg.start < seg.endPos)
    (hsep : ∀ x ∈ R, ∀ y ∈ R, x = y ∨ y.endPos < x.start ∨ x.endPos < y.start)
    (seg : Segment) (hseg : seg ∈ R) :
    innerCovered rs (seg.start - 1) = false ∧ innerCovered rs seg.endPos = false := by
  have hw := hwid seg hseg
  constructor
  · have hno : ¬ ∃ s ∈ R, s.start ≤ seg.start - 1 ∧ seg.start - 1 < s.endPos := by
      rintro ⟨s, hs, ha, hb⟩
      rcases hsep seg hseg s hs with heq | hlt | hlt
      · rw [← heq] at ha hb
        omega
      · omega
      · omega
    cases hval : innerCovered rs (seg.start - 1) with
    | false => rfl
    | true => exact absurd ((hcov _).mp hval) hno
  · have hno : ¬ ∃ s ∈ R, s.start ≤ seg.endPos ∧ seg.endPos < s.endPos := by
      rintro ⟨s, hs, ha, hb⟩
      rcases hsep seg hseg s hs with heq | hlt | hlt
      · rw [← heq] at hb
        omega
      · omega
      · omega
    cases hval : innerCovered rs seg.endPos with
    | false => rfl
    | true => exact absurd ((hcov _).mp hval) hno

/-- C1 (amended): for a well-nested input — every range nonempty, any two
ranges disjoint or strictly nested — each output range of
`convertToDisjointRanges` is a maximal run of unit positions whose innermost
(narrowest) enclosing input range has a truthy count, of width at least 2;
and every innermost-covered position lies in exactly one output range, except
an isolated covered position (a maximal run of width 1, dropped by the width
filter), whose neighbours are both uncovered. The claim's original reading —
output covers every position lying in at least one truthy-count range — is
refuted by `claim_C1_counterexample`. -/
theorem claim_C1_innermost_semantics (rs : List CoverageRange) (h : ProperNested rs) :
    (∀ seg ∈ convertToDisjointRanges rs,
        (∀ p : Int, seg.start ≤ p → p < seg.endPos → innerCovered rs p = true) ∧
        innerCovered rs (seg.start - 1) = false ∧
        innerCovered rs seg.endPos = false ∧
        1 < seg.endPos - seg.start) ∧
    (∀ p : Int, innerCovered rs p = true →
        (convertToDisjointRanges rs).countP
          (fun seg => decide (seg.start ≤ p) && decide (p < seg.endPos)) = 1 ∨
        (innerCovered rs (p - 1) = false ∧ innerCovered rs (p + 1) = false)) := by
  obtain ⟨hwid, hpairRev, hcov⟩ := sweep_results_facts rs h
  have hsep := results_separated hpairRev
  have hdef : convertToDisjointRanges rs =
      (((insertionSortP (rs.flatMap pointsOf)).foldl sweepStep
        ⟨[], [], 0⟩).resultsRev.reverse.filter
        fun range => decide (1 < range.endPos - range.start)) := rfl
  have hmemR : ∀ seg ∈ convertToDisjointRanges rs,
      seg ∈ ((insertionSortP (rs.flatMap pointsOf)).foldl sweepStep
        ⟨[], [], 0⟩).resultsRev ∧ 1 < seg.endPos - seg.start := by
    intro seg hseg
    rw [hdef] at hseg
    obtain ⟨hrev, hpred⟩ := List.mem_filter.mp hseg
    exact ⟨List.mem_reverse.mp hrev, of_decide_eq_true hpred⟩
  constructor
  · intro seg hseg
    obtain ⟨hsegR, hw⟩ := hmemR seg hseg
    obtain ⟨hb1, hb2⟩ := boundary_uncovered rs _ hcov hwid hsep seg hsegR
    exact ⟨fun p hp1 hp2 => (hcov p).mpr ⟨seg, hsegR, hp1, hp2⟩, hb1, hb2, hw⟩
  · intro p hp
    obtain ⟨seg, hsegR, h1, h2⟩ := (hcov p).mp hp
    by_cases hw : 1 < seg.endPos - seg.start
    · left
      have hsegF : seg ∈ convertToDisjointRanges rs := by
        rw [hdef]
        exact List.mem_filter.mpr ⟨List.mem_reverse.mpr hsegR, decide_eq_true hw⟩
      exact countP_contains_eq_one _ p (convertToDisjointRanges_shape rs).2 seg hsegF h1 h2
    · right
      have hlt := hwid seg hsegR
      have hpstart : p = seg.start := by omega
      obtain ⟨hb1, hb2⟩ := boundary_uncovered rs _ hcov hwid hsep seg hsegR
      constructor
      · have he1 : p - 1 = seg.start - 1 := by omega
        rw [he1]
        exact hb1
      · have he2 : p + 1 = seg.endPos := by omega
        rw [he2]
        exact hb2

theorem claim_C1_innermost_semantics_witness :
    ProperNested [⟨0, 10, 1⟩, ⟨3, 6, 0⟩] ∧
    (∀ p : Int, innerCovered [⟨0, 10, 1⟩, ⟨3, 6, 0⟩] p = true →
        (convertToDisjointRanges [⟨0, 10, 1⟩, ⟨3, 6, 0⟩]).countP
          (fun seg => decide (seg.start ≤ p) && decide (p < seg.endPos)) = 1 ∨
        (innerCovered [⟨0, 10, 1⟩, ⟨3, 6, 0⟩] (p - 1) = false ∧
         innerCovered [⟨0, 10, 1⟩, ⟨3, 6, 0⟩] (p + 1) = false)) :=
  ⟨⟨by decide, by decide⟩,
    (claim_C1_innermost_semantics [⟨0, 10, 1⟩, ⟨3, 6, 0⟩] ⟨by decide, by decide⟩).2⟩

end Coverage
